import Mathlib

/-!
Verification development for the `otgorm` repository (OpenTelemetry
instrumentation callbacks for the Gorm ORM).

The embedding below translates `src/callbacks.go` and the `WithContext`
helper into Lean.  Pure string manipulation (the SQL log formatter and its
regular-expression based placeholder substitution) is translated exactly,
over `List Char`.  External collaborators (the Go standard library's
`unicode`/`time`/`reflect` packages, the tracing SDK and the ORM's scope
object) are modelled by explicit data types faithful to the way the
repository uses them; each such model carries a doc comment saying what it
stands for.
-/

set_option maxRecDepth 4000

namespace Otgorm

/-! ### Model of Go dynamic values reaching the formatter -/

/-- Model of Go `unicode.IsPrint` as used by `isPrintable`.  Exact on the
ASCII range (printable means `0x20 ..= 0x7e`); outside ASCII the C1 control
block `0x80 ..= 0x9f` and the delete character are non-printable and other
runes are treated as printable.  This models the standard-library rune
table, which is external to the repository. -/
def unicodeIsPrint (c : Char) : Bool :=
  if c.toNat < 128 then 32 ≤ c.toNat && c.toNat ≤ 126
  else !(c.toNat ≤ 159)

/-- Translation of `isPrintable` from `src/callbacks.go`: every rune of the
string is printable. -/
def isPrintable (s : String) : Bool :=
  s.data.all unicodeIsPrint

/-- Model of Go `time.Time` restricted to the fields the formatter renders
with layout `2006-01-02 15:04:05`.  Sub-second precision and location are
irrelevant to that layout and are omitted. -/
structure GoTime where
  year : Nat
  month : Nat
  day : Nat
  hour : Nat
  minute : Nat
  second : Nat
deriving DecidableEq, Repr

/-- Model of `time.Time.IsZero`: the zero instant is January 1 of year 1,
00:00:00. -/
def GoTime.isZero (t : GoTime) : Bool :=
  t.year == 1 && t.month == 1 && t.day == 1 &&
  t.hour == 0 && t.minute == 0 && t.second == 0

/-- Decimal rendering of `n` left-padded with zeros to width `w`, as Go's
time formatter produces for the numeric layout fields. -/
def padNum (w n : Nat) : String :=
  String.mk (List.replicate (w - (Nat.repr n).length) '0') ++ Nat.repr n

/-- Model of `t.Format("2006-01-02 15:04:05")`. -/
def GoTime.format (t : GoTime) : String :=
  padNum 4 t.year ++ "-" ++ padNum 2 t.month ++ "-" ++ padNum 2 t.day ++ " " ++
  padNum 2 t.hour ++ ":" ++ padNum 2 t.minute ++ ":" ++ padNum 2 t.second

/-- Model of a non-pointer Go dynamic value as classified by the type
tests in `LogFormatter` (`src/callbacks.go`): a `time.Time`, a `[]byte`
(carried as the string `string(b)` of its runes), a `driver.Valuer`
(carried as the outcome of its `Value()` call: whether it returned an
error, and the `%v` rendering of its result when the result is non-nil), a
signed integer, an unsigned integer, a float (carried as its `%v`
rendering, floating-point text output being external to the embedding), a
bool, or any other value (carried as its `%v` rendering, e.g. a string
value is carried as itself). -/
inductive GoBase where
  | timeValue (t : GoTime)
  | bytesValue (s : String)
  | valuer (errored : Bool) (val : Option String)
  | intValue (n : Int)
  | uintValue (n : Nat)
  | floatValue (r : String)
  | boolValue (b : Bool)
  | other (r : String)
deriving DecidableEq

/-- Model of a Go `interface` value handed to the formatter: a nil
interface, a pointer (possibly nil) to a base value, or a base value.
`reflect.Indirect` on a nil interface or nil pointer yields an invalid
value; on a non-nil pointer it dereferences once. -/
inductive GoValue where
  | nilValue
  | ptr (inner : Option GoBase)
  | base (b : GoBase)
deriving DecidableEq

/-- Model of `reflect.Indirect(reflect.ValueOf(value))` followed by the
`IsValid` test: `none` means the indirect value is invalid. -/
def indirect : GoValue → Option GoBase
  | .nilValue => none
  | .ptr none => none
  | .ptr (some b) => some b
  | .base b => some b

/-- Single-quote wrapping used by the formatter's `fmt.Sprintf("'%v'", _)`
calls. -/
def sq (s : String) : String := "'" ++ s ++ "'"

/-- Translation of the per-value branch of `LogFormatter`
(`src/callbacks.go`), applied to an indirected (valid) value: the chain of
type tests in source order — `time.Time`, `[]byte`, `driver.Valuer`, the
numeric/bool type switch, and the quoted default. -/
def formatBase : GoBase → String
  | .timeValue t =>
      if t.isZero then sq "0000-00-00 00:00:00" else sq t.format
  | .bytesValue s =>
      if isPrintable s then sq s else sq "<binary>"
  | .valuer errored val =>
      match errored, val with
      | false, some v => sq v
      | _, _ => "NULL"
  | .intValue n => toString n
  | .uintValue n => Nat.repr n
  | .floatValue r => r
  | .boolValue b => if b then "true" else "false"
  | .other r => sq r

/-- Translation of one iteration of the value loop of `LogFormatter`:
indirect the value; an invalid result is rendered `NULL`, otherwise the
value is rendered by type. -/
def formatValue (v : GoValue) : String :=
  match indirect v with
  | none => "NULL"
  | some b => formatBase b

/-- The `formattedValues` list built by `LogFormatter`'s first loop. -/
def formattedValues (vars : List GoValue) : List String :=
  vars.map formatValue

/-! ### Placeholder substitution -/

/-- Model of `numericPlaceHolderRegexp.MatchString`: the pattern is
`\$\d+`, so a match exists exactly when some `$` is immediately followed
by a digit. -/
def hasDollarDigit : List Char → Bool
  | [] => false
  | [_] => false
  | c :: d :: rest => (c = '$' && d.isDigit) || hasDollarDigit (d :: rest)

/-- Model of `sqlRegexp.Split(s, -1)` for the pattern `\?`: the pieces of
`s` between its `?` characters (a split of the empty string is one empty
piece). -/
def splitOnQ : List Char → List (List Char)
  | [] => [[]]
  | c :: rest =>
    if c = '?' then [] :: splitOnQ rest
    else
      match splitOnQ rest with
      | [] => [[c]]
      | p :: ps => (c :: p) :: ps

/-- Translation of the ordinal-mode loop of `LogFormatter`: the pieces are
emitted in order and after the piece of index `i` the formatted value of
index `i` is emitted when it exists. -/
def interleaveQ : List (List Char) → List (List Char) → List Char
  | [], _ => []
  | p :: ps, [] => p ++ interleaveQ ps []
  | p :: ps, v :: vs => p ++ v ++ interleaveQ ps vs

/-- Word characters of Go `regexp`'s replacement-template parser
(`extract`): letters, digits and underscore, modelled over ASCII. -/
def isWordChar (c : Char) : Bool := c.isAlpha || c.isDigit || c == '_'

/-- Decimal value of a digit string, as the template parser computes a
purely numeric group name. -/
def decDigits (l : List Char) : Nat :=
  l.foldl (fun a c => a * 10 + (c.toNat - 48)) 0

/-- Numeric interpretation of a template variable name: a non-empty
all-digit name denotes a capture-group index, any other name is a named
group (our patterns have none, so it expands to nothing). -/
def nameToNum (nm : List Char) : Option Nat :=
  if !nm.isEmpty && nm.all Char.isDigit then some (decDigits nm) else none

/-- Value of the capture group with index `n` for a match of the pattern
`\$i([^\d]|$)`: group 0 is the whole match, group 1 the single captured
character (empty when the end-of-text alternative matched), every other
index is out of range and expands to nothing. -/
def groupVal (g0 g1 : List Char) (n : Nat) : List Char :=
  if n = 0 then g0 else if n = 1 then g1 else []

/-- Expansion of one parsed template variable name. -/
def expandName (g0 g1 nm : List Char) : List Char :=
  match nameToNum nm with
  | some n => groupVal g0 g1 n
  | none => []

/-- Model of Go `regexp`'s replacement-template expansion (`Expand`) for a
match with groups `g0` (whole match) and `g1` (the capture): `$$` is a
literal dollar, `$name` with `name` the longest run of word characters is
a group reference, a brace-wrapped form is a delimited group reference, a
dollar followed by no well-formed name stays literal. -/
def expandTmpl (g0 g1 : List Char) : List Char → List Char
  | [] => []
  | c :: rest =>
    if c = '$' then
      match rest with
      | [] => ['$']
      | c2 :: rest2 =>
        if c2 = '$' then '$' :: expandTmpl g0 g1 rest2
        else if c2 = Char.ofNat 123 then
          if (rest2.takeWhile isWordChar).isEmpty then '$' :: expandTmpl g0 g1 (c2 :: rest2)
          else
            match h : rest2.dropWhile isWordChar with
            | [] => '$' :: expandTmpl g0 g1 (c2 :: rest2)
            | d :: r4 =>
              if d = Char.ofNat 125 then
                expandName g0 g1 (rest2.takeWhile isWordChar) ++ expandTmpl g0 g1 r4
              else '$' :: expandTmpl g0 g1 (c2 :: rest2)
        else
          if ((c2 :: rest2).takeWhile isWordChar).isEmpty then
            '$' :: expandTmpl g0 g1 (c2 :: rest2)
          else
            expandName g0 g1 ((c2 :: rest2).takeWhile isWordChar) ++
              expandTmpl g0 g1 ((c2 :: rest2).dropWhile isWordChar)
    else c :: expandTmpl g0 g1 rest
termination_by l => l.length
decreasing_by
  all_goals simp_wf
  all_goals first
    | omega
    | (have h1 := congrArg List.length h
       have h2 := ((List.dropWhile_sublist isWordChar :
         (List.dropWhile isWordChar rest).Sublist rest)).length_le
       simp only [List.length_cons] at h1
       omega)
    | (have h1 := congrArg List.length h
       have h2 := ((List.dropWhile_sublist isWordChar :
         (List.dropWhile isWordChar rest2).Sublist rest2)).length_le
       simp only [List.length_cons] at h1
       omega)
    | (exact Nat.lt_of_le_of_lt ((List.dropWhile_sublist isWordChar).length_le)
        (by simp only [List.length_cons]; omega))

/-- Model of `regexp.MustCompile(fmt.Sprintf("\$%d([^\d]|$)", i)).
ReplaceAllString(s, tmpl)` over the characters of `s`, where `ds` is the
decimal digit string of `i`.  The scan is leftmost, non-overlapping: at a
`$` whose following text starts with `ds` and then either ends or
continues with a non-digit, the match (which consumes the following
character) is replaced by the expanded template and the scan resumes after
it; everywhere else the character is copied. -/
def replaceAllNum (ds tmpl : List Char) : List Char → List Char
  | [] => []
  | c :: rest =>
    if c = '$' && ds.isPrefixOf rest then
      match h : rest.drop ds.length with
      | [] => expandTmpl ('$' :: ds) [] tmpl
      | d :: rest2 =>
        if d.isDigit then c :: replaceAllNum ds tmpl rest
        else expandTmpl ('$' :: (ds ++ [d])) [d] tmpl ++ replaceAllNum ds tmpl rest2
    else c :: replaceAllNum ds tmpl rest
termination_by l => l.length
decreasing_by
  all_goals simp_wf
  all_goals first
    | omega
    | (have h1 := congrArg List.length h
       simp only [List.length_drop, List.length_cons] at h1
       omega)

/-- Accumulator loop of the decimal rendering of a natural number. -/
def natDigitsGo : Nat → List Char → List Char
  | 0, acc => acc
  | n + 1, acc => natDigitsGo ((n + 1) / 10) (Char.ofNat (48 + (n + 1) % 10) :: acc)
termination_by n _ => n
decreasing_by
  exact Nat.div_lt_self (Nat.succ_pos n) (by omega)

/-- Model of `fmt.Sprintf("%d", n)`: the decimal digit string of `n`. -/
def natDigits (n : Nat) : List Char :=
  if n = 0 then ['0'] else natDigitsGo n []

/-- Translation of the numbered-placeholder loop of `LogFormatter`: for
each value index `i` (one-based) in increasing order, replace matches of
`\$i([^\d]|$)` in the evolving string with the template `value ++ "$1"`.
The loop is written with the running one-based index made explicit. -/
def numberedLoop (idx : Nat) (fvs : List String) (s : List Char) : List Char :=
  match fvs with
  | [] => s
  | v :: vs => numberedLoop (idx + 1) vs (replaceAllNum (natDigits (idx + 1)) (v.data ++ ['$', '1']) s)

/-- The numbered-placeholder substitution of `LogFormatter`, starting the
value index at one. -/
def numberedSubst (q : List Char) (fvs : List String) : List Char :=
  numberedLoop 0 fvs q

/-- Translation of `LogFormatter` from `src/callbacks.go`.  The Go
function is variadic over `interface` values and is always called as
`LogFormatter(scope.SQL, scope.SQLVars)`; the embedding takes the query
string and the bound-value list directly.  The first loop formats every
bound value; then, if the query contains a `$`-digit placeholder, the
numbered substitution runs, otherwise the query is split on `?` and
interleaved with the values. -/
def LogFormatter (sql : String) (vars : List GoValue) : String :=
  let fvs := formattedValues vars
  if hasDollarDigit sql.data then
    String.mk (numberedSubst sql.data fvs)
  else
    String.mk (interleaveQ (splitOnQ sql.data) (fvs.map String.data))

/-! ### Model of contexts, spans, scopes and the callback hooks -/

/-- Model of a Go `context.Context` as the repository uses it: it may
carry a current span (by span id), and carries an abstract `tag`
distinguishing otherwise-equal context values. -/
structure Context where
  spanInCtx : Option Nat
  tag : Nat
deriving DecidableEq

/-- Model of `context.Background()`. -/
def Context.background : Context := ⟨none, 0⟩

/-- Model of a Go `trace.Span` interface value as an expression may hold
it: the nil interface is `none` (the case `startTrace` compares against),
a non-nil value is a real span (by id) or the library's no-op span. -/
inductive SpanRef where
  | noop
  | real (sid : Nat)
deriving DecidableEq

/-- Model of `trace.SpanFromContext` as the pinned
`go.opentelemetry.io/otel/trace` releases (v0.17.0 / v0.19.0) implement
it: the span carried by the context when there is one, and otherwise a
non-nil no-op span — never the nil interface.  The `none` case of the
result type is therefore unreachable here; it exists because the source's
`parentSpan == nil` comparison tests for it. -/
def spanFromContext (ctx : Context) : Option SpanRef :=
  some (match ctx.spanInCtx with
    | some sid => SpanRef.real sid
    | none => SpanRef.noop)

/-- Model of the tracing SDK's status codes as used by `endTrace`
(`codes.Ok` / `codes.Error`). -/
inductive StatusCode where
  | ok
  | error
deriving DecidableEq

/-- Model of a tracing span: its name, parent (span id, if started from a
context carrying one), start options, attributes (key/value strings, a
model of `label.KeyValue`), status and whether `End` was called. -/
structure Span where
  name : String
  parent : Option Nat
  startOpts : List Nat
  attributes : List (String × String)
  status : Option (StatusCode × String)
  ended : Bool
deriving DecidableEq

/-- Model of the tracer's world: every span ever started, identified by
its index. -/
structure TraceState where
  spans : List Span
deriving DecidableEq

/-- Model of `tracer.Start(ctx, name, opts...)`: a fresh span is recorded
whose parent is the span carried by `ctx` (none when `ctx` carries no span
— the no-op span's span context is invalid, so the fresh span is a root
span), and the returned context carries the fresh span. -/
def tracerStart (st : TraceState) (ctx : Context) (name : String) (opts : List Nat) :
    TraceState × Context × Nat :=
  (⟨st.spans ++ [⟨name, ctx.spanInCtx, opts, [], none, false⟩]⟩,
   { ctx with spanInCtx := some st.spans.length }, st.spans.length)

/-- Update the span with id `sid`, when it exists. -/
def TraceState.modifySpan (st : TraceState) (sid : Nat) (f : Span → Span) : TraceState :=
  ⟨st.spans.mapIdx (fun i sp => if i = sid then f sp else sp)⟩

/-- Model of a dynamically typed value stored in the ORM scope's settings:
the repository stores a context and a span; `otherVal` stands for any
value of another type (for which the hooks' type assertions fail). -/
inductive ScopeVal where
  | ctxVal (c : Context)
  | spanVal (sid : Nat)
  | otherVal (tag : Nat)
deriving DecidableEq

/-- Model of the ORM's per-operation `Scope`: its settings store
(`Get`/`Set`), and the fields the hooks read — `SQL`, `SQLVars`, the table
name, and the operation's error (`none` when `HasError()` is false,
`some nf` for an error with `nf` the value of
`gorm.IsRecordNotFoundError`). -/
structure Scope where
  settings : List (String × ScopeVal)
  sql : String
  sqlVars : List GoValue
  tableName : String
  dbError : Option Bool
deriving DecidableEq

/-- Model of `scope.Get`: the most recently set binding of the key. -/
def Scope.get (s : Scope) (k : String) : Option ScopeVal :=
  (s.settings.find? (fun kv => kv.1 == k)).map Prod.snd

/-- Model of `scope.Set`. -/
def Scope.set (s : Scope) (k : String) (v : ScopeVal) : Scope :=
  { s with settings := (k, v) :: s.settings }

/-- The `contextScopeKey` constant of `src/callbacks.go`. -/
def contextScopeKey : String := "_otContext"

/-- The `spanScopeKey` constant of `src/callbacks.go`. -/
def spanScopeKey : String := "_otSpan"

/-- The `TableKey` attribute key of `src/callbacks.go`. -/
def TableKey : String := "gorm.table"

/-- The `QueryKey` attribute key of `src/callbacks.go`. -/
def QueryKey : String := "gorm.query"

/-- Model of `fileWithLineNum` from `src/callbacks.go`: runtime stack
introspection is not shallow-embeddable, so the caller path it formats is
modelled as an abstract constant string. -/
def fileWithLineNum : String := "caller-file:line"

/-- Translation of the `callbacks` configuration struct from
`src/callbacks.go`; the tracer is identified by an abstract id (its
behaviour is `tracerStart`), and span start options are abstract ids. -/
structure Callbacks where
  allowRoot : Bool
  query : Bool
  table : Bool
  defaultAttributes : List (String × String)
  tracer : Nat
  spanOptions : List Nat
deriving DecidableEq

/-- Translation of `startTrace` from `src/callbacks.go`: the source
intends to return the context unchanged when there is no parent span and
root spans are disallowed, and otherwise to start a span named
`gorm:<operation>` — from a fresh background context when there is no
parent — and store it on the scope under `spanScopeKey`.  Both the
suppression branch and the background-start branch test
`parentSpan == nil`, which `spanFromContext` never produces, so they are
dead code: a span is started from the scope's context on every call. -/
def startTrace (c : Callbacks) (ctx : Context) (scope : Scope) (operation : String)
    (st : TraceState) : Context × Scope × TraceState :=
  match spanFromContext ctx with
  | none =>
    if !c.allowRoot then (ctx, scope, st)
    else
      let r := tracerStart st Context.background ("gorm:" ++ operation) c.spanOptions
      (r.2.1, scope.set spanScopeKey (.spanVal r.2.2), r.1)
  | some _ =>
    let r := tracerStart st ctx ("gorm:" ++ operation) c.spanOptions
    (r.2.1, scope.set spanScopeKey (.spanVal r.2.2), r.1)

/-- The context the `before` hook computes from the scope: the stored
`contextScopeKey` value when it is a (non-nil) context, and
`context.Background()` otherwise. -/
def scopeContext (scope : Scope) : Context :=
  match scope.get contextScopeKey with
  | some (.ctxVal ctx) => ctx
  | _ => Context.background

/-- Result of running one hook: the (possibly updated) configuration,
scope and tracer world. -/
structure HookResult where
  cbs : Callbacks
  scope : Scope
  trace : TraceState
deriving DecidableEq

/-- Translation of the `before` method of `src/callbacks.go`. -/
def before (c : Callbacks) (scope : Scope) (operation : String) (st : TraceState) :
    HookResult :=
  let ctx := scopeContext scope
  let r := startTrace c ctx scope operation st
  ⟨c, r.2.1.set contextScopeKey (.ctxVal r.1), r.2.2⟩

/-- Translation of `endTrace` from `src/callbacks.go`: without a stored
span value of span type the hook does nothing; otherwise it sets the
attributes (defaults, the optional table and query attributes, and the
caller path), sets the status derived from the scope's error, and ends
the span. -/
def endTrace (c : Callbacks) (scope : Scope) (st : TraceState) : HookResult :=
  match scope.get spanScopeKey with
  | none => ⟨c, scope, st⟩
  | some rspan =>
    match rspan with
    | .spanVal sid =>
      let attributes :=
        c.defaultAttributes ++
        (if c.table then [(TableKey, scope.tableName)] else []) ++
        (if c.query then [(QueryKey, LogFormatter scope.sql scope.sqlVars)] else []) ++
        [("path", fileWithLineNum)]
      let st1 := st.modifySpan sid
        (fun sp => { sp with attributes := sp.attributes ++ attributes })
      let cm : StatusCode × String :=
        match scope.dbError with
        | none => (.ok, "")
        | some nf => (.error, if nf then "gorm:NotFound" else "gorm:Unknown")
      let st2 := st1.modifySpan sid (fun sp => { sp with status := some cm })
      let st3 := st2.modifySpan sid (fun sp => { sp with ended := true })
      ⟨c, scope, st3⟩
    | _ => ⟨c, scope, st⟩

/-- Translation of the `after` method of `src/callbacks.go`. -/
def after (c : Callbacks) (scope : Scope) (st : TraceState) : HookResult :=
  endTrace c scope st

/-- Translation of `beforeCreate`. -/
def beforeCreate (c : Callbacks) (scope : Scope) (st : TraceState) : HookResult :=
  before c scope "create" st

/-- Translation of `afterCreate`. -/
def afterCreate (c : Callbacks) (scope : Scope) (st : TraceState) : HookResult :=
  after c scope st

/-- Translation of `beforeQuery`. -/
def beforeQuery (c : Callbacks) (scope : Scope) (st : TraceState) : HookResult :=
  before c scope "query" st

/-- Translation of `afterQuery`. -/
def afterQuery (c : Callbacks) (scope : Scope) (st : TraceState) : HookResult :=
  after c scope st

/-- Translation of `beforeUpdate`. -/
def beforeUpdate (c : Callbacks) (scope : Scope) (st : TraceState) : HookResult :=
  before c scope "update" st

/-- Translation of `afterUpdate`. -/
def afterUpdate (c : Callbacks) (scope : Scope) (st : TraceState) : HookResult :=
  after c scope st

/-- Translation of `beforeDelete`. -/
def beforeDelete (c : Callbacks) (scope : Scope) (st : TraceState) : HookResult :=
  before c scope "delete" st

/-- Translation of `afterDelete`. -/
def afterDelete (c : Callbacks) (scope : Scope) (st : TraceState) : HookResult :=
  after c scope st

/-- Translation of `beforeRowQuery`. -/
def beforeRowQuery (c : Callbacks) (scope : Scope) (st : TraceState) : HookResult :=
  before c scope "row_query" st

/-- Translation of `afterRowQuery`. -/
def afterRowQuery (c : Callbacks) (scope : Scope) (st : TraceState) : HookResult :=
  after c scope st

/-- Model of the ORM's `DB` handle as far as the repository touches it:
its settings store, which the per-operation scope inherits. -/
structure DB where
  settings : List (String × ScopeVal)
deriving DecidableEq

/-- Translation of `WithContext` (the repository file embedding the
`db.Set(contextScopeKey, ctx)` call). -/
def WithContext (ctx : Context) (db : DB) : DB :=
  ⟨(contextScopeKey, .ctxVal ctx) :: db.settings⟩

/-- Model of the ORM creating the per-operation scope for a database call
on `db`: the scope sees the db's settings and carries the operation's SQL,
bound values, table name and error outcome. -/
def mkScope (db : DB) (sql : String) (vars : List GoValue) (table : String)
    (err : Option Bool) : Scope :=
  ⟨db.settings, sql, vars, table, err⟩

/-- Model of the zero `callbacks` value with the empty default-attribute
list, as `RegisterCallbacks` allocates it. -/
def initialCallbacks : Callbacks :=
  ⟨false, false, false, [], 0, []⟩

/-- The abstract id of the global tracer `otel.GetTracerProvider().Tracer("otgorm")`. -/
def globalTracer : Nat := 0

/-- The abstract id of the `trace.WithSpanKind(trace.SpanKindInternal)` option. -/
def spanKindInternal : Nat := 0

/-- Translation of the `WithTracer` option. -/
def WithTracer (t : Nat) : Callbacks → Callbacks :=
  fun c => { c with tracer := t }

/-- Translation of the `WithSpanOptions` option. -/
def WithSpanOptions (opts : List Nat) : Callbacks → Callbacks :=
  fun c => { c with spanOptions := opts }

/-- Translation of the `AllowRoot` option. -/
def AllowRoot (b : Bool) : Callbacks → Callbacks :=
  fun c => { c with allowRoot := b }

/-- Translation of the `Query` option. -/
def Query (b : Bool) : Callbacks → Callbacks :=
  fun c => { c with query := b }

/-- Translation of the `Table` option. -/
def Table (b : Bool) : Callbacks → Callbacks :=
  fun c => { c with table := b }

/-- Translation of the `DefaultAttributes` option. -/
def DefaultAttributes (d : List (String × String)) : Callbacks → Callbacks :=
  fun c => { c with defaultAttributes := d }

/-- Translation of the configuration part of `RegisterCallbacks`: the
option functions (modelled as `Callbacks → Callbacks`, the `apply` method
of the `Option` interface) are applied in order after the two defaults. -/
def registerCallbacks (opts : List (Callbacks → Callbacks)) : Callbacks :=
  ([WithTracer globalTracer, WithSpanOptions [spanKindInternal]] ++ opts).foldl
    (fun c f => f c) initialCallbacks

/-- Model of running the before hook and then the after hook of one
intercepted operation, the ORM threading the scope and the tracing world
between them. -/
def opRoundTrip (c : Callbacks) (scope : Scope) (op : String) (st : TraceState) :
    HookResult :=
  after (before c scope op st).cbs (before c scope op st).scope (before c scope op st).trace

/-! ### Specification-side definitions

The following definitions are written from the words of the spec and of
the claims (not from the source); the theorems below compare them with the
embedded source functions. -/

/-- Value rendering as the spec describes it, clause by clause: a non-zero
time as its `2006-01-02 15:04:05` rendering in single quotes and a zero
time as `0000-00-00 00:00:00`; a byte slice as its string content in
single quotes when every rune is printable and as `<binary>` otherwise; a
driver valuer as its underlying value in single quotes when `Value()`
succeeds with a non-nil result and `NULL` otherwise; integer, unsigned,
float and bool values unquoted; any other value in single quotes; a nil or
invalid (non-indirectable) value as `NULL`. -/
def formatValueSpec (v : GoValue) : String :=
  match indirect v with
  | none => "NULL"
  | some (.timeValue t) =>
      if t.isZero then "'0000-00-00 00:00:00'" else "'" ++ t.format ++ "'"
  | some (.bytesValue s) =>
      if s.data.all unicodeIsPrint then "'" ++ s ++ "'" else "'<binary>'"
  | some (.valuer errored val) =>
      match val, errored with
      | some u, false => "'" ++ u ++ "'"
      | _, _ => "NULL"
  | some (.intValue n) => toString n
  | some (.uintValue n) => Nat.repr n
  | some (.floatValue r) => r
  | some (.boolValue b) => if b then "true" else "false"
  | some (.other r) => "'" ++ r ++ "'"

/-- Numbered-placeholder replacement as the amended claim C1 describes it:
scanning left to right, each non-overlapping occurrence of `$i` (digit
string `ds`) followed by a non-digit character or the end of the string is
replaced by the formatted value `v` itself, the following character being
preserved (it is consumed by the match, so the scan resumes after it). -/
def specReplaceNum (ds v : List Char) : List Char → List Char
  | [] => []
  | c :: rest =>
    if c = '$' && ds.isPrefixOf rest then
      match h : rest.drop ds.length with
      | [] => v
      | d :: rest2 =>
        if d.isDigit then c :: specReplaceNum ds v rest
        else v ++ d :: specReplaceNum ds v rest2
    else c :: specReplaceNum ds v rest
termination_by l => l.length
decreasing_by
  all_goals simp_wf
  all_goals first
    | omega
    | (have h1 := congrArg List.length h
       simp only [List.length_drop, List.length_cons] at h1
       omega)

/-- The numbered-mode substitution of the amended claim C1: one
`specReplaceNum` pass per value, indices increasing from one. -/
def specNumberedLoop (idx : Nat) (fvs : List String) (s : List Char) : List Char :=
  match fvs with
  | [] => s
  | v :: vs => specNumberedLoop (idx + 1) vs (specReplaceNum (natDigits (idx + 1)) v.data s)

/-- The numbered-mode substitution of the amended claim C1, starting the
value index at one. -/
def specNumberedSubst (q : List Char) (fvs : List String) : List Char :=
  specNumberedLoop 0 fvs q

/-- Ordinal-mode substitution as claim C1 describes it: the i-th `?`
marker is replaced by the i-th formatted value (a `?` marker with no value
left is kept). -/
def specQSubst : List (List Char) → List Char → List Char
  | _, [] => []
  | vals, c :: rest =>
    if c = '?' then
      match vals with
      | v :: vs => v ++ specQSubst vs rest
      | [] => c :: specQSubst [] rest
    else c :: specQSubst vals rest

/-- Count of `?` markers in a query. -/
def countQMarks (l : List Char) : Nat := l.count '?'

/-- Token view of a numbered-mode query used to state the amended claim
C5: a query decomposes into literal segments and placeholders `$j`. -/
inductive NumToken where
  | lit (t : List Char)
  | ph (j : Nat)
deriving DecidableEq

/-- The query text a token list stands for. -/
def renderTok : List NumToken → List Char
  | [] => []
  | .lit t :: ts => t ++ renderTok ts
  | .ph j :: ts => '$' :: (natDigits j ++ renderTok ts)

/-- A literal segment admissible in the amended claim C5: it contains no
dollar and no question mark. -/
def litOk (t : List Char) : Bool :=
  !t.contains '$' && !t.contains '?'

/-- Well-formed token list for a query with `n` bound values: literal
segments are admissible, every placeholder index is between 1 and `n`, and
every placeholder is followed by the end of the query or by a literal
segment starting with a non-digit character (in particular no two
placeholders are adjacent and no placeholder is followed by a digit). -/
def wfTokens (n : Nat) : List NumToken → Bool
  | [] => true
  | .lit t :: ts => litOk t && wfTokens n ts
  | .ph j :: ts =>
    (decide (1 ≤ j) && decide (j ≤ n)) &&
    (match ts with
     | [] => true
     | .lit [] :: _ => false
     | .lit (d :: _) :: _ => !d.isDigit
     | .ph _ :: _ => false) &&
    wfTokens n ts

/-- Replacement of every placeholder of index `i` by the literal value
`v`. -/
def replacePh (i : Nat) (v : List Char) : List NumToken → List NumToken
  | [] => []
  | .lit t :: ts => .lit t :: replacePh i v ts
  | .ph j :: ts => (if j = i then .lit v else .ph j) :: replacePh i v ts

/-- The single-quote character, named for use in concrete character
lists. -/
def quoteChar : Char := Char.ofNat 39

/-! ### Shared helper lemmas -/

/-- Setting a scope key makes it retrievable. -/
theorem scope_get_set_self (s : Scope) (k : String) (v : ScopeVal) :
    (s.set k v).get k = some v := by
  simp [Scope.get, Scope.set, List.find?]

/-- Setting one scope key leaves another key's binding unchanged. -/
theorem scope_get_set_ne (s : Scope) (k1 k2 : String) (v : ScopeVal)
    (h : (k1 == k2) = false) : (s.set k1 v).get k2 = s.get k2 := by
  simp [Scope.get, Scope.set, List.find?, h]

/-- Indexing after `modifySpan`: the modified index is mapped, every other
index is unchanged. -/
theorem modifySpan_get (st : TraceState) (sid : Nat) (f : Span → Span) (j : Nat) :
    (st.modifySpan sid f).spans[j]? =
      if j = sid then (st.spans[j]?).map f else st.spans[j]? := by
  unfold TraceState.modifySpan
  simp only [List.getElem?_mapIdx]
  by_cases hj : j = sid
  · simp [hj]
  · simp [hj]

/-- Pointwise agreement of the embedded value formatter with the spec's
clause-by-clause rendering. -/
theorem formatValue_eq_spec (v : GoValue) : formatValue v = formatValueSpec v := by
  rcases v with _ | inner | b
  · rfl
  · rcases inner with _ | b
    · rfl
    · rcases b with t | s | ⟨e, val⟩ | n | n | r | bb | r
      all_goals try rfl
      cases e <;> cases val <;> rfl
  · rcases b with t | s | ⟨e, val⟩ | n | n | r | bb | r
    all_goals try rfl
    cases e <;> cases val <;> rfl

/-- The `endTrace` hook never changes the configuration. -/
theorem endTrace_cbs (c : Callbacks) (scope : Scope) (st : TraceState) :
    (endTrace c scope st).cbs = c := by
  unfold endTrace
  cases h : scope.get spanScopeKey with
  | none => rfl
  | some v => cases v <;> rfl

/-! ### Claim theorems: value rendering, frame property, no-op after hook -/

/-- C2: LogFormatter value rendering — every bound value is formatted by
its type: a non-zero time as its `2006-01-02 15:04:05` rendering in single
quotes and a zero time as `0000-00-00 00:00:00`; a byte slice as its
string content in single quotes when every rune is printable and as
`<binary>` otherwise; a driver Valuer as its underlying value in single
quotes when `Value()` succeeds with a non-nil result and as NULL
otherwise; integer, unsigned, float, and bool values unquoted; any other
value in single quotes; and a nil or invalid (non-indirectable) value as
NULL. -/
theorem logformatter_value_rendering (vars : List GoValue) :
    formattedValues vars = vars.map formatValueSpec := by
  unfold formattedValues
  induction vars with
  | nil => rfl
  | cons v vs ih => simp [List.map, ih, formatValue_eq_spec]

/-- C8: read-only configuration — no before/after hook of any of the five
operations changes any field of the callbacks configuration (in
particular the default attribute list, and so its elements, are those set
at registration). -/
theorem hooks_readonly_config (c : Callbacks) (scope : Scope) (st : TraceState) :
    (beforeCreate c scope st).cbs = c ∧ (afterCreate c scope st).cbs = c ∧
    (beforeQuery c scope st).cbs = c ∧ (afterQuery c scope st).cbs = c ∧
    (beforeUpdate c scope st).cbs = c ∧ (afterUpdate c scope st).cbs = c ∧
    (beforeDelete c scope st).cbs = c ∧ (afterDelete c scope st).cbs = c ∧
    (beforeRowQuery c scope st).cbs = c ∧ (afterRowQuery c scope st).cbs = c := by
  refine ⟨rfl, ?_, rfl, ?_, rfl, ?_, rfl, ?_, rfl, ?_⟩ <;>
    exact endTrace_cbs c scope st

/-- C10: the after hook is a no-op without a span — when the scope stores
nothing under the span key, or stores a value that is not a span, endTrace
changes nothing: no attribute set, no status set, no span ended. -/
theorem after_noop (c : Callbacks) (scope : Scope) (st : TraceState)
    (h : scope.get spanScopeKey = none ∨
      ∃ v, scope.get spanScopeKey = some v ∧ ∀ sid, v ≠ ScopeVal.spanVal sid) :
    after c scope st = ⟨c, scope, st⟩ := by
  unfold after endTrace
  rcases h with h | ⟨v, hv, hns⟩
  · rw [h]
  · rw [hv]
    cases v with
    | spanVal sid => exact absurd rfl (hns sid)
    | ctxVal cc => rfl
    | otherVal t => rfl

/-- Witness for C10 at a scope storing a non-span value under the span
key. -/
theorem after_noop_witness :
    after ⟨false, false, false, [], 0, []⟩
        ⟨[(spanScopeKey, .otherVal 3)], "q", [], "t", none⟩ ⟨[]⟩ =
      ⟨⟨false, false, false, [], 0, []⟩,
        ⟨[(spanScopeKey, .otherVal 3)], "q", [], "t", none⟩, ⟨[]⟩⟩ :=
  after_noop _ _ _ (Or.inr ⟨.otherVal 3, by decide,
    fun _ h => ScopeVal.noConfusion h⟩)

/-- The before hook always records exactly one fresh span (named after the
operation, carrying the configured span options and, as parent, the span
the scope's context carries — none for a parentless context) and stores
its id on the scope: `spanFromContext` never returns the nil interface, so
`startTrace` takes its span-starting branch on every call, whatever
`allowRoot` is. -/
theorem before_starts_span (c : Callbacks) (scope : Scope) (op : String) (st : TraceState) :
    (before c scope op st).trace.spans =
      st.spans ++ [⟨"gorm:" ++ op, (scopeContext scope).spanInCtx,
        c.spanOptions, [], none, false⟩] ∧
    (before c scope op st).scope.get spanScopeKey = some (.spanVal st.spans.length) := by
  unfold before startTrace spanFromContext tracerStart
  constructor
  · rfl
  · rw [scope_get_set_ne _ _ _ _ (by decide), scope_get_set_self]

/-- C3 (code bug): the claim says that with no parent span in the
operation's context and `allowRoot` false (the default) the before hook
starts no span.  In fact the pinned `go.opentelemetry.io/otel/trace`
releases implement `SpanFromContext` to return a non-nil no-op span for a
span-free context, so the `parentSpan == nil` suppression branch of
`startTrace` never executes: with the default configuration and a scope
whose context carries no span, the before hook still starts the span
`gorm:query` — as a root span, with no parent — and stores it on the
scope. -/
theorem root_span_suppression_bug :
    (registerCallbacks []).allowRoot = false ∧
    spanFromContext (scopeContext ⟨[], "q", [], "t", none⟩) = some SpanRef.noop ∧
    (before (registerCallbacks []) ⟨[], "q", [], "t", none⟩ "query" ⟨[]⟩).trace.spans =
      [⟨"gorm:query", none, [spanKindInternal], [], none, false⟩] ∧
    (before (registerCallbacks []) ⟨[], "q", [], "t", none⟩ "query" ⟨[]⟩).scope.get
      spanScopeKey = some (.spanVal 0) := by decide

/-- C4: status derivation — with a span stored on the scope, the after
hook sets the span's status to Ok with empty message when the scope has no
error, to Error with message `gorm:NotFound` when the error is the
record-not-found error, and to Error with message `gorm:Unknown` for any
other error, and then ends the span. -/
theorem status_derivation (c : Callbacks) (scope : Scope) (st : TraceState) (sid : Nat)
    (h : scope.get spanScopeKey = some (.spanVal sid)) :
    ((after c scope st).trace.spans[sid]?).map Span.status =
      (st.spans[sid]?).map (fun _ => some
        (match scope.dbError with
         | none => (StatusCode.ok, "")
         | some true => (StatusCode.error, "gorm:NotFound")
         | some false => (StatusCode.error, "gorm:Unknown"))) ∧
    ((after c scope st).trace.spans[sid]?).map Span.ended =
      (st.spans[sid]?).map (fun _ => true) := by
  unfold after endTrace
  rw [h]
  simp only [modifySpan_get, if_pos rfl, Option.map_map]
  cases hsp : st.spans[sid]? with
  | none => simp
  | some sp =>
    rcases hde : scope.dbError with _ | nf
    · simp [Function.comp]
    · cases nf <;> simp [Function.comp]

/-- Witness for C4 at a scope whose error is the record-not-found error. -/
theorem status_derivation_witness :
    ((after ⟨false, false, false, [], 0, []⟩
        ⟨[(spanScopeKey, .spanVal 0)], "q", [], "t", some true⟩
        ⟨[⟨"gorm:query", none, [], [], none, false⟩]⟩).trace.spans[0]?).map Span.status =
      some (some (StatusCode.error, "gorm:NotFound")) ∧
    ((after ⟨false, false, false, [], 0, []⟩
        ⟨[(spanScopeKey, .spanVal 0)], "q", [], "t", some true⟩
        ⟨[⟨"gorm:query", none, [], [], none, false⟩]⟩).trace.spans[0]?).map Span.ended =
      some true := by
  have h := status_derivation ⟨false, false, false, [], 0, []⟩
    ⟨[(spanScopeKey, .spanVal 0)], "q", [], "t", some true⟩
    ⟨[⟨"gorm:query", none, [], [], none, false⟩]⟩ 0 (by decide)
  exact ⟨h.1.trans (by decide), h.2.trans (by decide)⟩

/-- Counterexample to C6 as stated: with the Table option disabled but a
default attribute binding `gorm.table` to the scope's table name, the
finalized span's attributes do contain `gorm.table` bound to the table
name, so the containment holds without the Table option being enabled —
the "if and only if" fails. -/
theorem attribute_attachment_counterexample :
    (∃ sp2,
      (after ⟨false, false, false, [("gorm.table", "users")], 0, []⟩
          ⟨[(spanScopeKey, .spanVal 0)], "q", [], "users", none⟩
          ⟨[⟨"gorm:query", none, [], [], none, false⟩]⟩).trace.spans[0]? = some sp2 ∧
      (TableKey, "users") ∈ sp2.attributes) ∧
    (⟨false, false, false, [("gorm.table", "users")], 0, []⟩ : Callbacks).table = false := by
  constructor
  · exact ⟨⟨"gorm:query", none, [],
      [("gorm.table", "users"), ("path", fileWithLineNum)],
      some (.ok, ""), true⟩, by decide, by decide⟩
  · rfl

/-- C6 (amended): attribute attachment — for a span with no previously
set attributes finalized by the after hook, the attributes set on the span
include every configured default attribute; they include `gorm.table`
bound to the scope's table name if the Table option is enabled, and —
provided that binding is not itself among the default attributes — only if
it is enabled; likewise they include `gorm.query` bound to the
LogFormatter rendering of the scope's SQL and bound values if the Query
option is enabled, and — provided that binding is not among the default
attributes — only if it is enabled. -/
theorem attribute_attachment (c : Callbacks) (scope : Scope) (st : TraceState)
    (sid : Nat) (sp : Span)
    (h : scope.get spanScopeKey = some (.spanVal sid))
    (hsp : st.spans[sid]? = some sp)
    (hattr : sp.attributes = []) :
    ∃ sp2, (after c scope st).trace.spans[sid]? = some sp2 ∧
      (∀ a ∈ c.defaultAttributes, a ∈ sp2.attributes) ∧
      (c.table = true → (TableKey, scope.tableName) ∈ sp2.attributes) ∧
      (c.query = true →
        (QueryKey, LogFormatter scope.sql scope.sqlVars) ∈ sp2.attributes) ∧
      ((TableKey, scope.tableName) ∉ c.defaultAttributes →
        ((TableKey, scope.tableName) ∈ sp2.attributes ↔ c.table = true)) ∧
      ((QueryKey, LogFormatter scope.sql scope.sqlVars) ∉ c.defaultAttributes →
        ((QueryKey, LogFormatter scope.sql scope.sqlVars) ∈ sp2.attributes ↔
          c.query = true)) := by
  unfold after endTrace
  rw [h]
  simp only [modifySpan_get, if_pos rfl, Option.map_map, hsp, Option.map_some]
  refine ⟨_, rfl, ?_, ?_, ?_, ?_, ?_⟩ <;>
    simp only [Function.comp, hattr, List.nil_append, List.mem_append,
      List.mem_singleton]
  · intro a ha
    exact Or.inl (Or.inl (Or.inl ha))
  · intro ht
    simp [ht]
  · intro hq
    simp [hq]
  · intro hnd
    constructor
    · rintro (((hd | htab) | hquer) | hpath)
      · exact absurd hd hnd
      · by_cases ht : c.table
        · exact ht
        · rw [if_neg ht] at htab
          exact absurd htab (List.not_mem_nil _)
      · by_cases hq : c.query
        · rw [if_pos hq, List.mem_singleton, Prod.mk.injEq] at hquer
          exact absurd hquer.1 (by decide)
        · rw [if_neg hq] at hquer
          exact absurd hquer (List.not_mem_nil _)
      · rw [Prod.mk.injEq] at hpath
        exact absurd hpath.1 (by decide)
    · intro ht
      simp [ht]
  · intro hnd
    constructor
    · rintro (((hd | htab) | hquer) | hpath)
      · exact absurd hd hnd
      · by_cases ht : c.table
        · rw [if_pos ht, List.mem_singleton, Prod.mk.injEq] at htab
          exact absurd htab.1 (by decide)
        · rw [if_neg ht] at htab
          exact absurd htab (List.not_mem_nil _)
      · by_cases hq : c.query
        · exact hq
        · rw [if_neg hq] at hquer
          exact absurd hquer (List.not_mem_nil _)
      · rw [Prod.mk.injEq] at hpath
        exact absurd hpath.1 (by decide)
    · intro hq
      simp [hq]

/-- Witness for C6 at a configuration with one default attribute and both
options enabled. -/
theorem attribute_attachment_witness :
    (∃ sp2,
      (after ⟨false, true, true, [("db.system", "postgres")], 0, []⟩
          ⟨[(spanScopeKey, .spanVal 0)], "q", [], "users", none⟩
          ⟨[⟨"gorm:query", none, [], [], none, false⟩]⟩).trace.spans[0]? = some sp2 ∧
      ("db.system", "postgres") ∈ sp2.attributes ∧
      (TableKey, "users") ∈ sp2.attributes ∧
      (QueryKey, LogFormatter "q" []) ∈ sp2.attributes) := by
  obtain ⟨sp2, h1, h2, h3, h4, h5, h6⟩ :=
    attribute_attachment ⟨false, true, true, [("db.system", "postgres")], 0, []⟩
      ⟨[(spanScopeKey, .spanVal 0)], "q", [], "users", none⟩
      ⟨[⟨"gorm:query", none, [], [], none, false⟩]⟩ 0
      ⟨"gorm:query", none, [], [], none, false⟩ (by decide) (by decide) rfl
  exact ⟨sp2, h1, h2 _ (by decide), h3 rfl, h4 rfl⟩

/-- C7: context bridge — for a single operation on a db handle prepared
with `WithContext`, the context the before hook retrieves is exactly the
one `WithContext` stored; and (when a span is started) the span id the
before hook stores on the scope is the freshly started span, the after
hook of the same operation ends exactly that span, and it ends no other
span. -/
theorem context_bridge (c : Callbacks) (db : DB) (ctx : Context)
    (op sqlq tname : String) (vars : List GoValue) (err : Option Bool)
    (st : TraceState)
    (hstart : spanFromContext ctx ≠ none ∨ c.allowRoot = true) :
    scopeContext (mkScope (WithContext ctx db) sqlq vars tname err) = ctx ∧
    (before c (mkScope (WithContext ctx db) sqlq vars tname err) op st).scope.get
        spanScopeKey = some (.spanVal st.spans.length) ∧
    ((opRoundTrip c (mkScope (WithContext ctx db) sqlq vars tname err) op
        st).trace.spans[st.spans.length]?).map Span.ended = some true ∧
    ∀ j, j ≠ st.spans.length →
      ((opRoundTrip c (mkScope (WithContext ctx db) sqlq vars tname err) op
          st).trace.spans[j]?).map Span.ended =
        ((before c (mkScope (WithContext ctx db) sqlq vars tname err) op
            st).trace.spans[j]?).map Span.ended := by
  have hctx : scopeContext (mkScope (WithContext ctx db) sqlq vars tname err) = ctx := by
    simp [scopeContext, mkScope, WithContext, Scope.get, List.find?]
  obtain ⟨hspans, hget⟩ := before_starts_span c
    (mkScope (WithContext ctx db) sqlq vars tname err) op st
  refine ⟨hctx, hget, ?_, ?_⟩
  · unfold opRoundTrip after endTrace
    rw [hget]
    simp only [modifySpan_get, if_pos rfl, Option.map_map]
    rw [hspans, List.getElem?_concat_length]
    rfl
  · intro j hj
    unfold opRoundTrip after endTrace
    rw [hget]
    simp only [modifySpan_get, if_neg hj]

/-- Witness for C7 at a context that carries a parent span. -/
theorem context_bridge_witness :
    ((opRoundTrip ⟨false, false, false, [], 0, []⟩
        (mkScope (WithContext ⟨some 0, 5⟩ ⟨[]⟩) "q" [] "t" none) "query"
        ⟨[⟨"parent", none, [], [], none, false⟩]⟩).trace.spans[1]?).map Span.ended =
      some true := by
  have h := context_bridge ⟨false, false, false, [], 0, []⟩ ⟨[]⟩ ⟨some 0, 5⟩
    "query" "q" "t" [] none ⟨[⟨"parent", none, [], [], none, false⟩]⟩
    (Or.inl (by decide))
  exact h.2.2.1

/-! ### Lemmas about the ordinal-mode split and interleave -/

/-- The split of a query is never the empty list of pieces. -/
theorem splitOnQ_ne_nil : ∀ l : List Char, splitOnQ l ≠ [] := by
  intro l
  induction l with
  | nil => simp [splitOnQ]
  | cons c rest ih =>
    rw [splitOnQ]
    by_cases hc : c = '?'
    · simp [hc]
    · rw [if_neg hc]
      cases hs : splitOnQ rest with
      | nil => simp
      | cons p ps => simp

/-- The number of pieces is one more than the number of `?` markers. -/
theorem splitOnQ_length : ∀ l : List Char, (splitOnQ l).length = countQMarks l + 1 := by
  intro l
  induction l with
  | nil => simp [splitOnQ, countQMarks]
  | cons c rest ih =>
    rw [splitOnQ]
    by_cases hc : c = '?'
    · subst hc
      rw [if_pos rfl]
      simp only [List.length_cons, countQMarks, List.count_cons, beq_self_eq_true,
        if_true]
      simp only [countQMarks] at ih
      omega
    · rw [if_neg hc]
      have hbe : (c == '?') = false := beq_eq_false_iff_ne.mpr hc
      cases hs : splitOnQ rest with
      | nil => exact absurd hs (splitOnQ_ne_nil rest)
      | cons p ps =>
        rw [hs] at ih
        simp only [List.length_cons] at ih ⊢
        simp only [countQMarks, List.count_cons] at ih ⊢
        rw [hbe]
        simp only [Bool.false_eq_true, if_false]
        omega

/-- A piece may absorb its first character. -/
theorem interleaveQ_cons_piece (c : Char) (p : List Char) (ps vals : List (List Char)) :
    interleaveQ ((c :: p) :: ps) vals = c :: interleaveQ (p :: ps) vals := by
  cases vals <;> simp [interleaveQ]

/-- Values beyond the number of pieces are ignored by the interleave. -/
theorem interleaveQ_take : ∀ (ps vals : List (List Char)),
    interleaveQ ps (vals.take ps.length) = interleaveQ ps vals := by
  intro ps
  induction ps with
  | nil => intro vals; simp [interleaveQ]
  | cons p ps ih =>
    intro vals
    cases vals with
    | nil => simp
    | cons v vs =>
      simp only [List.length_cons, List.take_succ_cons, interleaveQ]
      rw [ih vs]

/-- With exactly one more piece than values, one further value is emitted
at the very end of the interleave. -/
theorem interleaveQ_snoc : ∀ (ps vs : List (List Char)) (v : List Char),
    ps.length = vs.length + 1 → interleaveQ ps (vs ++ [v]) = interleaveQ ps vs ++ v := by
  intro ps
  induction ps with
  | nil => intro vs v h; simp at h
  | cons p ps ih =>
    intro vs v h
    cases vs with
    | nil =>
      simp only [List.length_cons, List.length_nil] at h
      have : ps = [] := List.length_eq_zero.mp (by omega)
      subst this
      simp [interleaveQ]
    | cons u us =>
      simp only [List.length_cons] at h
      simp only [List.cons_append, interleaveQ, List.append_eq]
      rw [ih us v (by omega)]
      simp [List.append_assoc]

/-- Every character of the interleave comes from a piece or from a
value. -/
theorem mem_interleaveQ : ∀ (ps vs : List (List Char)) (c : Char),
    c ∈ interleaveQ ps vs → (∃ p ∈ ps, c ∈ p) ∨ ∃ u ∈ vs, c ∈ u := by
  intro ps
  induction ps with
  | nil => intro vs c h; simp [interleaveQ] at h
  | cons p ps ih =>
    intro vs c h
    cases vs with
    | nil =>
      simp only [interleaveQ, List.mem_append] at h
      rcases h with h | h
      · exact Or.inl ⟨p, List.mem_cons_self p ps, h⟩
      · rcases ih [] c h with ⟨p2, hp2, hc⟩ | ⟨u, hu, _⟩
        · exact Or.inl ⟨p2, List.mem_cons_of_mem p hp2, hc⟩
        · simp at hu
    | cons u us =>
      simp only [interleaveQ, List.append_assoc, List.mem_append] at h
      rcases h with h | h | h
      · exact Or.inl ⟨p, List.mem_cons_self p ps, h⟩
      · exact Or.inr ⟨u, List.mem_cons_self u us, h⟩
      · rcases ih us c h with ⟨p2, hp2, hc⟩ | ⟨u2, hu2, hc⟩
        · exact Or.inl ⟨p2, List.mem_cons_of_mem p hp2, hc⟩
        · exact Or.inr ⟨u2, List.mem_cons_of_mem u hu2, hc⟩

/-- Every character of every piece comes from the query and is not a `?`
marker (the split removes every marker). -/
theorem mem_splitOnQ : ∀ (l : List Char) (p : List Char), p ∈ splitOnQ l →
    ∀ c ∈ p, c ∈ l ∧ c ≠ '?' := by
  intro l
  induction l with
  | nil =>
    intro p hp c hc
    simp only [splitOnQ, List.mem_singleton] at hp
    subst hp
    simp at hc
  | cons c0 rest ih =>
    intro p hp c hc
    rw [splitOnQ] at hp
    by_cases hc0 : c0 = '?'
    · rw [if_pos hc0] at hp
      simp only [List.mem_cons] at hp
      rcases hp with hp | hp
      · subst hp; simp at hc
      · have := ih p hp c hc
        exact ⟨List.mem_cons_of_mem _ this.1, this.2⟩
    · rw [if_neg hc0] at hp
      cases hs : splitOnQ rest with
      | nil => exact absurd hs (splitOnQ_ne_nil rest)
      | cons p1 ps1 =>
        rw [hs] at hp
        simp only [List.mem_cons] at hp
        rcases hp with hp | hp
        · subst hp
          simp only [List.mem_cons] at hc
          rcases hc with hc | hc
          · subst hc
            exact ⟨List.mem_cons_self _ _, hc0⟩
          · have := ih p1 (by rw [hs]; exact List.mem_cons_self _ _) c hc
            exact ⟨List.mem_cons_of_mem _ this.1, this.2⟩
        · have := ih p (by rw [hs]; exact List.mem_cons_of_mem _ hp) c hc
          exact ⟨List.mem_cons_of_mem _ this.1, this.2⟩

/-- Counterexample to C9 as stated: in ? mode with one marker and two
values, the second value is not ignored — it is appended at the end of the
output. -/
theorem ordinal_surplus_counterexample :
    LogFormatter "a?b" [.base (.intValue 7), .base (.intValue 8)] = "a7b8" ∧
    ("a7b8" : String) ≠ "a7b" := by
  constructor
  · decide
  · decide

/-- C9 (amended): ordinal-mode surplus handling — in ? substitution mode:
(i) when the formatted values contain no `?`, the output contains no `?`
at all, whatever the counts (in particular ? markers beyond the number of
values are deleted, not preserved); (ii) only the first k+1 values can
appear, where k is the number of ? markers (values beyond the (k+1)-th are
silently ignored); (iii) the (k+1)-th value, when present, is appended at
the end of the output rather than ignored. -/
theorem ordinal_surplus (sqlq : String) (vars : List GoValue)
    (h : hasDollarDigit sqlq.data = false) :
    ((∀ fv ∈ formattedValues vars, fv.data.contains '?' = false) →
      (LogFormatter sqlq vars).data.contains '?' = false) ∧
    LogFormatter sqlq vars =
      LogFormatter sqlq (vars.take (countQMarks sqlq.data + 1)) ∧
    ∀ fv, (formattedValues vars)[countQMarks sqlq.data]? = some fv →
      LogFormatter sqlq vars =
        LogFormatter sqlq (vars.take (countQMarks sqlq.data)) ++ fv := by
  have hfv : ∀ m, formattedValues (vars.take m) = (formattedValues vars).take m := by
    intro m
    unfold formattedValues
    exact List.map_take formatValue vars m
  refine ⟨?_, ?_, ?_⟩
  · intro hv
    unfold LogFormatter
    rw [if_neg (by simp [h])]
    cases hq : (String.mk (interleaveQ (splitOnQ sqlq.data)
        ((formattedValues vars).map String.data))).data.contains '?'
    · rfl
    · exfalso
      have hmem : '?' ∈ interleaveQ (splitOnQ sqlq.data)
          ((formattedValues vars).map String.data) :=
        List.mem_of_elem_eq_true hq
      rcases mem_interleaveQ _ _ _ hmem with ⟨p, hp, hc⟩ | ⟨u, hu, hc⟩
      · exact (mem_splitOnQ sqlq.data p hp '?' hc).2 rfl
      · rcases List.mem_map.mp hu with ⟨fv2, hfv2, rfl⟩
        have hmem2 : fv2.data.contains '?' = true := List.elem_eq_true_of_mem hc
        rw [hv fv2 hfv2] at hmem2
        exact Bool.noConfusion hmem2
  · unfold LogFormatter
    rw [if_neg (by simp [h]), if_neg (by simp [h])]
    rw [hfv]
    apply congrArg
    rw [List.map_take]
    have hlen : (splitOnQ sqlq.data).length = countQMarks sqlq.data + 1 :=
      splitOnQ_length sqlq.data
    rw [← hlen]
    exact (interleaveQ_take (splitOnQ sqlq.data)
      ((formattedValues vars).map String.data)).symm
  · intro fv hk
    have hklt : countQMarks sqlq.data < (formattedValues vars).length := by
      by_contra hge
      rw [List.getElem?_eq_none (by omega)] at hk
      exact Option.noConfusion hk
    apply String.ext
    show (LogFormatter sqlq vars).data =
      (LogFormatter sqlq (vars.take (countQMarks sqlq.data))).data ++ fv.data
    unfold LogFormatter
    rw [if_neg (by simp [h]), if_neg (by simp [h])]
    rw [hfv, List.map_take]
    show interleaveQ (splitOnQ sqlq.data) ((formattedValues vars).map String.data) =
      interleaveQ (splitOnQ sqlq.data)
        (((formattedValues vars).map String.data).take (countQMarks sqlq.data)) ++ fv.data
    have hlen : (splitOnQ sqlq.data).length = countQMarks sqlq.data + 1 :=
      splitOnQ_length sqlq.data
    have h1 := (interleaveQ_take (splitOnQ sqlq.data)
      ((formattedValues vars).map String.data)).symm
    rw [h1, hlen]
    have h2 : ((formattedValues vars).map String.data).take (countQMarks sqlq.data + 1) =
        ((formattedValues vars).map String.data).take (countQMarks sqlq.data) ++
          [fv.data] := by
      rw [List.take_succ]
      congr 1
      rw [List.getElem?_map, hk]
      rfl
    rw [h2]
    apply interleaveQ_snoc
    rw [List.length_take, hlen, List.length_map]
    omega

/-- Witness for C9: one marker, three values — the output has no `?`, and
the third value is ignored while the second is appended. -/
theorem ordinal_surplus_witness :
    (LogFormatter "x?y" [.base (.intValue 7), .base (.intValue 8),
        .base (.intValue 9)]).data.contains '?' = false ∧
    LogFormatter "x?y" [.base (.intValue 7), .base (.intValue 8),
        .base (.intValue 9)] =
      LogFormatter "x?y" [.base (.intValue 7), .base (.intValue 8)] := by
  have h := ordinal_surplus "x?y" [.base (.intValue 7), .base (.intValue 8),
    .base (.intValue 9)] (by decide)
  exact ⟨h.1 (by decide), h.2.1.trans (by decide)⟩

/-! ### Lemmas about the numbered-mode scanners -/

/-- Unfold `replaceAllNum` at a position with no match. -/
theorem replaceAllNum_nomatch (ds tmpl : List Char) (c : Char) (rest : List Char)
    (hc : (c = '$' && ds.isPrefixOf rest) = false) :
    replaceAllNum ds tmpl (c :: rest) = c :: replaceAllNum ds tmpl rest := by
  rw [replaceAllNum, if_neg (by simp [hc])]

/-- Unfold `replaceAllNum` at a match against the end of the text. -/
theorem replaceAllNum_end (ds tmpl : List Char) (c : Char) (rest : List Char)
    (hc : (c = '$' && ds.isPrefixOf rest) = true)
    (hdrop : rest.drop ds.length = []) :
    replaceAllNum ds tmpl (c :: rest) = expandTmpl ('$' :: ds) [] tmpl := by
  rw [replaceAllNum, if_pos hc]
  split
  · rfl
  · rename_i d rest2 heq
    rw [hdrop] at heq
    exact List.noConfusion heq

/-- Unfold `replaceAllNum` when the candidate digits are followed by a
further digit: no match, the scan moves on by one character. -/
theorem replaceAllNum_digit (ds tmpl : List Char) (c : Char) (rest : List Char)
    (d : Char) (rest2 : List Char)
    (hc : (c = '$' && ds.isPrefixOf rest) = true)
    (hdrop : rest.drop ds.length = d :: rest2) (hd : d.isDigit = true) :
    replaceAllNum ds tmpl (c :: rest) = c :: replaceAllNum ds tmpl rest := by
  rw [replaceAllNum, if_pos hc]
  split
  · rename_i heq
    rw [hdrop] at heq
    exact List.noConfusion heq
  · rename_i d2 r2 heq
    rw [hdrop] at heq
    injection heq with h1 h2
    subst h1; subst h2
    rw [if_pos hd]

/-- Unfold `replaceAllNum` at a match whose captured character is a
non-digit. -/
theorem replaceAllNum_mid (ds tmpl : List Char) (c : Char) (rest : List Char)
    (d : Char) (rest2 : List Char)
    (hc : (c = '$' && ds.isPrefixOf rest) = true)
    (hdrop : rest.drop ds.length = d :: rest2) (hd : d.isDigit = false) :
    replaceAllNum ds tmpl (c :: rest) =
      expandTmpl ('$' :: (ds ++ [d])) [d] tmpl ++ replaceAllNum ds tmpl rest2 := by
  rw [replaceAllNum, if_pos hc]
  split
  · rename_i heq
    rw [hdrop] at heq
    exact List.noConfusion heq
  · rename_i d2 r2 heq
    rw [hdrop] at heq
    injection heq with h1 h2
    subst h1; subst h2
    rw [if_neg (by simp [hd])]

/-- Unfold `specReplaceNum` at a position with no match. -/
theorem specReplaceNum_nomatch (ds v : List Char) (c : Char) (rest : List Char)
    (hc : (c = '$' && ds.isPrefixOf rest) = false) :
    specReplaceNum ds v (c :: rest) = c :: specReplaceNum ds v rest := by
  rw [specReplaceNum, if_neg (by simp [hc])]

/-- Unfold `specReplaceNum` at a match against the end of the text. -/
theorem specReplaceNum_end (ds v : List Char) (c : Char) (rest : List Char)
    (hc : (c = '$' && ds.isPrefixOf rest) = true)
    (hdrop : rest.drop ds.length = []) :
    specReplaceNum ds v (c :: rest) = v := by
  rw [specReplaceNum, if_pos hc]
  split
  · rfl
  · rename_i d rest2 heq
    rw [hdrop] at heq
    exact List.noConfusion heq

/-- Unfold `specReplaceNum` when the candidate digits are followed by a
further digit. -/
theorem specReplaceNum_digit (ds v : List Char) (c : Char) (rest : List Char)
    (d : Char) (rest2 : List Char)
    (hc : (c = '$' && ds.isPrefixOf rest) = true)
    (hdrop : rest.drop ds.length = d :: rest2) (hd : d.isDigit = true) :
    specReplaceNum ds v (c :: rest) = c :: specReplaceNum ds v rest := by
  rw [specReplaceNum, if_pos hc]
  split
  · rename_i heq
    rw [hdrop] at heq
    exact List.noConfusion heq
  · rename_i d2 r2 heq
    rw [hdrop] at heq
    injection heq with h1 h2
    subst h1; subst h2
    rw [if_pos hd]

/-- Unfold `specReplaceNum` at a match whose captured character is a
non-digit. -/
theorem specReplaceNum_mid (ds v : List Char) (c : Char) (rest : List Char)
    (d : Char) (rest2 : List Char)
    (hc : (c = '$' && ds.isPrefixOf rest) = true)
    (hdrop : rest.drop ds.length = d :: rest2) (hd : d.isDigit = false) :
    specReplaceNum ds v (c :: rest) = v ++ d :: specReplaceNum ds v rest2 := by
  rw [specReplaceNum, if_pos hc]
  split
  · rename_i heq
    rw [hdrop] at heq
    exact List.noConfusion heq
  · rename_i d2 r2 heq
    rw [hdrop] at heq
    injection heq with h1 h2
    subst h1; subst h2
    rw [if_neg (by simp [hd])]

/-- The expansion of the empty template is empty. -/
theorem expandTmpl_nil (g0 g1 : List Char) : expandTmpl g0 g1 [] = [] := by
  rw [expandTmpl.eq_def]

/-- Expansion copies a leading non-dollar character. -/
theorem expandTmpl_cons_ne (g0 g1 : List Char) (c : Char) (rest : List Char)
    (hc : ¬c = '$') :
    expandTmpl g0 g1 (c :: rest) = c :: expandTmpl g0 g1 rest := by
  rw [expandTmpl.eq_def]
  simp [hc]

/-- The template `"$1"` expands to the first capture group. -/
theorem expandTmpl_dollar_one (g0 g1 : List Char) :
    expandTmpl g0 g1 ['$', '1'] = g1 := by
  rw [expandTmpl.eq_def]
  simp [expandName, nameToNum, decDigits, groupVal, isWordChar,
    List.takeWhile, List.dropWhile, expandTmpl_nil]

/-- Expansion of a dollar followed by a word-character name looks the name
up as a group reference. -/
theorem expandTmpl_name (g0 g1 : List Char) (c2 : Char) (rest2 : List Char)
    (h1 : ¬c2 = '$') (h2 : ¬c2 = Char.ofNat 123)
    (h3 : ((c2 :: rest2).takeWhile isWordChar).isEmpty = false) :
    expandTmpl g0 g1 ('$' :: c2 :: rest2) =
      expandName g0 g1 ((c2 :: rest2).takeWhile isWordChar) ++
        expandTmpl g0 g1 ((c2 :: rest2).dropWhile isWordChar) := by
  rw [expandTmpl.eq_def]
  simp only [if_pos rfl, if_neg h1, if_neg h2, h3]
  simp [h3]

/-- Unfold the decimal rendering loop at zero. -/
theorem natDigitsGo_zero (acc : List Char) : natDigitsGo 0 acc = acc := by
  rw [natDigitsGo]

/-- Unfold the decimal rendering loop at a successor. -/
theorem natDigitsGo_succ (n : Nat) (acc : List Char) :
    natDigitsGo (n + 1) acc =
      natDigitsGo ((n + 1) / 10) (Char.ofNat (48 + (n + 1) % 10) :: acc) := by
  rw [natDigitsGo]

/-- The decimal rendering of one. -/
theorem natDigits_one : natDigits 1 = ['1'] := by
  have h1 := natDigitsGo_succ 0 []
  norm_num at h1
  rw [natDigits, if_neg (by omega), h1, natDigitsGo_zero]

/-- Template expansion of `value ++ "$1"` for a dollar-free value inserts
the value and the capture verbatim. -/
theorem expandTmpl_value (g0 g1 v : List Char) (hv : v.contains '$' = false) :
    expandTmpl g0 g1 (v ++ ['$', '1']) = v ++ g1 := by
  induction v with
  | nil =>
    show expandTmpl g0 g1 ['$', '1'] = g1
    exact expandTmpl_dollar_one g0 g1
  | cons c v2 ih =>
    have hc : ('$' == c) = false ∧ v2.contains '$' = false := by
      simpa [List.contains_cons] using hv
    have hcne : ¬c = '$' := by
      intro h
      rw [h] at hc
      simp at hc
    show expandTmpl g0 g1 (c :: (v2 ++ ['$', '1'])) = c :: (v2 ++ g1)
    rw [expandTmpl_cons_ne g0 g1 c _ hcne, ih hc.2]

/-- With a dollar-free value, one `ReplaceAllString` pass (whose template
is `value ++ "$1"`) agrees with the claim's direct replacement pass. -/
theorem replaceAllNum_eq_spec (ds v : List Char) (hv : v.contains '$' = false) :
    ∀ s, replaceAllNum ds (v ++ ['$', '1']) s = specReplaceNum ds v s := by
  have main : ∀ n s, s.length ≤ n →
      replaceAllNum ds (v ++ ['$', '1']) s = specReplaceNum ds v s := by
    intro n
    induction n with
    | zero =>
      intro s hs
      have hnil : s = [] := List.length_eq_zero.mp (by omega)
      subst hnil
      rw [replaceAllNum, specReplaceNum]
    | succ n ih =>
      intro s hs
      cases s with
      | nil => rw [replaceAllNum, specReplaceNum]
      | cons c rest =>
        simp only [List.length_cons] at hs
        by_cases hc : (c = '$' && ds.isPrefixOf rest) = true
        · cases hdrop : rest.drop ds.length with
          | nil =>
            rw [replaceAllNum_end ds _ c rest hc hdrop,
              specReplaceNum_end ds v c rest hc hdrop,
              expandTmpl_value _ _ _ hv, List.append_nil]
          | cons d rest2 =>
            cases hd : d.isDigit with
            | true =>
              rw [replaceAllNum_digit ds _ c rest d rest2 hc hdrop hd,
                specReplaceNum_digit ds v c rest d rest2 hc hdrop hd,
                ih rest (by omega)]
            | false =>
              have hlen2 : rest2.length ≤ n := by
                have h1 := congrArg List.length hdrop
                simp only [List.length_drop, List.length_cons] at h1
                omega
              rw [replaceAllNum_mid ds _ c rest d rest2 hc hdrop hd,
                specReplaceNum_mid ds v c rest d rest2 hc hdrop hd,
                expandTmpl_value _ _ _ hv, ih rest2 hlen2]
              simp
        · have hcf : (c = '$' && ds.isPrefixOf rest) = false := by
            simp only [Bool.not_eq_true] at hc
            exact hc
          rw [replaceAllNum_nomatch ds _ c rest hcf,
            specReplaceNum_nomatch ds v c rest hcf,
            ih rest (by omega)]
  exact fun s => main s.length s (Nat.le_refl _)

/-- With dollar-free values, the numbered-mode loop agrees with the
claim's loop, whatever the starting index. -/
theorem numberedLoop_eq_spec : ∀ (fvs : List String) (idx : Nat) (s : List Char),
    (∀ fv ∈ fvs, fv.data.contains '$' = false) →
    numberedLoop idx fvs s = specNumberedLoop idx fvs s := by
  intro fvs
  induction fvs with
  | nil => intro idx s _; rw [numberedLoop, specNumberedLoop]
  | cons v vs ih =>
    intro idx s hv
    rw [numberedLoop, specNumberedLoop]
    rw [replaceAllNum_eq_spec _ _ (hv v (List.mem_cons_self v vs)) s]
    exact ih (idx + 1) _ (fun fv hfv => hv fv (List.mem_cons_of_mem v hfv))

/-- Unfold `specQSubst` on a non-empty query. -/
theorem specQSubst_cons (vals : List (List Char)) (c : Char) (rest : List Char) :
    specQSubst vals (c :: rest) =
      if c = '?' then
        match vals with
        | v :: vs => v ++ specQSubst vs rest
        | [] => c :: specQSubst [] rest
      else c :: specQSubst vals rest := by
  cases vals <;> rfl

/-- With as many values as `?` markers, the split-and-interleave loop
agrees with the claim's marker-by-marker replacement. -/
theorem interleave_eq_specQ : ∀ (q : List Char) (vals : List (List Char)),
    vals.length = countQMarks q →
    interleaveQ (splitOnQ q) vals = specQSubst vals q := by
  intro q
  induction q with
  | nil =>
    intro vals hlen
    simp only [countQMarks, List.count_nil] at hlen
    have : vals = [] := List.length_eq_zero.mp hlen
    subst this
    rw [splitOnQ]
    simp [interleaveQ, specQSubst]
  | cons c rest ih =>
    intro vals hlen
    rw [splitOnQ, specQSubst_cons]
    by_cases hc : c = '?'
    · rw [if_pos hc, if_pos hc]
      subst hc
      simp only [countQMarks, List.count_cons, beq_self_eq_true, if_true] at hlen
      cases vals with
      | nil => simp at hlen
      | cons v vs =>
        simp only [List.length_cons] at hlen
        simp only [interleaveQ]
        rw [ih vs (by simp only [countQMarks]; omega)]
        simp
    · rw [if_neg hc, if_neg hc]
      have hbe : (c == '?') = false := beq_eq_false_iff_ne.mpr hc
      have hcount : vals.length = countQMarks rest := by
        simp only [countQMarks, List.count_cons, hbe] at hlen ⊢
        simpa using hlen
      cases hs : splitOnQ rest with
      | nil => exact absurd hs (splitOnQ_ne_nil rest)
      | cons p ps =>
        rw [interleaveQ_cons_piece]
        rw [← hs, ih vals hcount]

/-- Counterexample to C1 as stated: because the replacement goes through
the regexp template engine, a formatted value containing a dollar sign is
not inserted verbatim — `$0b` inside the value is parsed as a reference to
the non-existent capture group named `0b` and expands to nothing, so the
occurrence of `$1` is not replaced by the formatted value. -/
theorem logformatter_substitution_counterexample :
    formattedValues [.base (.other "a$0b")] = ["'a$0b'"] ∧
    LogFormatter "c = $1" [.base (.other "a$0b")] = "c = 'a'" ∧
    ("c = 'a'" : String) ≠ "c = " ++ "'a$0b'" := by
  have hfv : formattedValues [.base (.other "a$0b")] = ["'a$0b'"] := by decide
  refine ⟨hfv, ?_, by decide⟩
  apply String.ext
  simp only [LogFormatter, if_pos (by decide : hasDollarDigit "c = $1".data = true), hfv]
  rw [numberedSubst, numberedLoop, numberedLoop, natDigits_one]
  rw [show ("'a$0b'".data ++ ['$', '1'] : List Char) =
    [quoteChar, 'a', '$', '0', 'b', quoteChar, '$', '1'] from rfl]
  rw [replaceAllNum_nomatch _ _ _ _ (by decide), replaceAllNum_nomatch _ _ _ _ (by decide),
    replaceAllNum_nomatch _ _ _ _ (by decide), replaceAllNum_nomatch _ _ _ _ (by decide),
    replaceAllNum_end _ _ _ _ (by decide) (by decide)]
  rw [expandTmpl_cons_ne _ _ _ _ (by decide), expandTmpl_cons_ne _ _ _ _ (by decide)]
  rw [expandTmpl_name _ _ _ _ (by decide) (by decide) (by decide)]
  simp only [show ((['0', 'b', quoteChar, '$', '1'] : List Char).takeWhile isWordChar) =
      ['0', 'b'] from by decide,
    show ((['0', 'b', quoteChar, '$', '1'] : List Char).dropWhile isWordChar) =
      [quoteChar, '$', '1'] from by decide]
  rw [expandTmpl_cons_ne _ _ _ _ (by decide), expandTmpl_dollar_one]
  simp only [expandName, nameToNum]
  decide

/-- C1 (amended): LogFormatter substitution — provided no formatted value
contains a dollar character: if the query contains a numbered placeholder
(`$` followed by a digit), the values are substituted by one pass per
index `i` in increasing order, each pass scanning left to right and
replacing the non-overlapping occurrences of `$i` that are followed by a
non-digit character or the end of the string by the i-th formatted value,
the following character being preserved but consumed by the match;
otherwise, when the query has as many `?` markers as there are values, the
i-th `?` marker is replaced by the i-th formatted value. -/
theorem logformatter_substitution (sqlq : String) (vars : List GoValue)
    (hv : ∀ fv ∈ formattedValues vars, fv.data.contains '$' = false)
    (hcount : hasDollarDigit sqlq.data = true ∨
      countQMarks sqlq.data = (formattedValues vars).length) :
    LogFormatter sqlq vars =
      if hasDollarDigit sqlq.data then
        String.mk (specNumberedSubst sqlq.data (formattedValues vars))
      else
        String.mk (specQSubst ((formattedValues vars).map String.data) sqlq.data) := by
  unfold LogFormatter
  by_cases hd : hasDollarDigit sqlq.data = true
  · rw [if_pos hd, if_pos hd]
    apply congrArg
    unfold numberedSubst specNumberedSubst
    exact numberedLoop_eq_spec (formattedValues vars) 0 sqlq.data hv
  · rw [if_neg hd, if_neg hd]
    apply congrArg
    rcases hcount with hcount | hcount
    · exact absurd hcount hd
    · exact interleave_eq_specQ sqlq.data ((formattedValues vars).map String.data)
        (by rw [List.length_map]; omega)

/-- Witness for C1 in each mode: a numbered query and an ordinal query
with matching counts. -/
theorem logformatter_substitution_witness :
    LogFormatter "a = $1" [.base (.intValue 7)] =
      String.mk (specNumberedSubst "a = $1".data
        (formattedValues [.base (.intValue 7)])) ∧
    LogFormatter "a = ?" [.base (.intValue 7)] =
      String.mk (specQSubst ((formattedValues [.base (.intValue 7)]).map String.data)
        "a = ?".data) := by
  constructor
  · have h := logformatter_substitution "a = $1" [.base (.intValue 7)]
      (by decide) (Or.inl (by decide))
    exact h.trans (by rw [if_pos (by decide)])
  · have h := logformatter_substitution "a = ?" [.base (.intValue 7)]
      (by decide) (Or.inr (by decide))
    exact h.trans (by rw [if_neg (by decide)])

/-! ### Properties of the decimal rendering -/

/-- The rendering loop only moves its accumulator to the right. -/
theorem natDigitsGo_acc : ∀ (n : Nat) (acc : List Char),
    natDigitsGo n acc = natDigitsGo n [] ++ acc := by
  intro n
  induction n using Nat.strong_induction_on with
  | _ n ih =>
    intro acc
    match n with
    | 0 => rw [natDigitsGo_zero, natDigitsGo_zero]; rfl
    | m + 1 =>
      have hlt : (m + 1) / 10 < m + 1 := Nat.div_lt_self (Nat.succ_pos m) (by omega)
      rw [natDigitsGo_succ, natDigitsGo_succ,
        ih _ hlt (Char.ofNat (48 + (m + 1) % 10) :: acc),
        ih _ hlt [Char.ofNat (48 + (m + 1) % 10)]]
      simp

/-- A digit character produced by the rendering loop. -/
theorem digitChar_isDigit (r : Nat) (h : r < 10) :
    (Char.ofNat (48 + r)).isDigit = true := by
  interval_cases r <;> decide

/-- The code of a digit character produced by the rendering loop. -/
theorem digitChar_toNat (r : Nat) (h : r < 10) :
    (Char.ofNat (48 + r)).toNat = 48 + r := by
  interval_cases r <;> decide

/-- Every character the rendering loop emits is a digit. -/
theorem natDigitsGo_digits : ∀ (n : Nat) (acc : List Char),
    (∀ c ∈ acc, c.isDigit = true) → ∀ c ∈ natDigitsGo n acc, c.isDigit = true := by
  intro n
  induction n using Nat.strong_induction_on with
  | _ n ih =>
    intro acc hacc c hc
    match n with
    | 0 =>
      rw [natDigitsGo_zero] at hc
      exact hacc c hc
    | m + 1 =>
      rw [natDigitsGo_succ] at hc
      refine ih _ (Nat.div_lt_self (Nat.succ_pos m) (by omega)) _ ?_ c hc
      intro c2 hc2
      rcases List.mem_cons.mp hc2 with h | h
      · subst h
        exact digitChar_isDigit _ (Nat.mod_lt _ (by omega))
      · exact hacc c2 h

/-- Every character of the decimal rendering is a digit. -/
theorem natDigits_digits (n : Nat) : ∀ c ∈ natDigits n, c.isDigit = true := by
  intro c hc
  rw [natDigits] at hc
  by_cases h0 : n = 0
  · rw [if_pos h0] at hc
    simp only [List.mem_singleton] at hc
    subst hc
    decide
  · rw [if_neg h0] at hc
    exact natDigitsGo_digits n [] (by simp) c hc

/-- The decimal rendering is never empty. -/
theorem natDigits_ne_nil (n : Nat) : natDigits n ≠ [] := by
  rw [natDigits]
  by_cases h0 : n = 0
  · rw [if_pos h0]; simp
  · rw [if_neg h0]
    match n, h0 with
    | m + 1, _ =>
      rw [natDigitsGo_succ, natDigitsGo_acc]
      simp

/-- Folding `decDigits` over an appended digit multiplies and adds. -/
theorem decDigits_append_one (l : List Char) (d : Char) :
    decDigits (l ++ [d]) = decDigits l * 10 + (d.toNat - 48) := by
  unfold decDigits
  rw [List.foldl_append]
  rfl

/-- The rendering loop round-trips through `decDigits`. -/
theorem decDigits_natDigitsGo : ∀ n : Nat, decDigits (natDigitsGo n []) = n := by
  intro n
  induction n using Nat.strong_induction_on with
  | _ n ih =>
    match n with
    | 0 => rw [natDigitsGo_zero]; rfl
    | m + 1 =>
      have hlt : (m + 1) / 10 < m + 1 := Nat.div_lt_self (Nat.succ_pos m) (by omega)
      rw [natDigitsGo_succ, natDigitsGo_acc, decDigits_append_one, ih _ hlt,
        digitChar_toNat _ (Nat.mod_lt _ (by omega))]
      omega

/-- The decimal rendering round-trips through `decDigits`. -/
theorem decDigits_natDigits (n : Nat) : decDigits (natDigits n) = n := by
  rw [natDigits]
  by_cases h0 : n = 0
  · rw [if_pos h0, h0]; rfl
  · rw [if_neg h0]
    exact decDigits_natDigitsGo n

/-- The decimal rendering is injective. -/
theorem natDigits_inj (a b : Nat) (h : natDigits a = natDigits b) : a = b := by
  have := congrArg decDigits h
  rwa [decDigits_natDigits, decDigits_natDigits] at this

/-! ### Lemmas about the token view of numbered queries -/

/-- A scan is transparent on a dollar-free prefix. -/
theorem replaceAllNum_append_free (ds tmpl : List Char) :
    ∀ (t rest : List Char), t.contains '$' = false →
      replaceAllNum ds tmpl (t ++ rest) = t ++ replaceAllNum ds tmpl rest := by
  intro t
  induction t with
  | nil => simp
  | cons c t2 ih =>
    intro rest ht
    have hc : ('$' == c) = false ∧ t2.contains '$' = false := by
      simpa [List.contains_cons] using ht
    have hcne : (c = '$' && ds.isPrefixOf (t2 ++ rest)) = false := by
      have h2 : ¬c = '$' := by
        intro h
        rw [h] at hc
        simp at hc
      simp [h2]
    rw [List.cons_append, replaceAllNum_nomatch _ _ _ _ hcne, ih rest hc.2]
    rfl

/-- Unfold `hasDollarDigit` on two or more characters. -/
theorem hasDollarDigit_cons₂ (c d : Char) (rest : List Char) :
    hasDollarDigit (c :: d :: rest) =
      ((c = '$' && d.isDigit) || hasDollarDigit (d :: rest)) := rfl

/-- A dollar-digit pair in the suffix survives prefixing. -/
theorem hasDollarDigit_append_right : ∀ (a b : List Char),
    hasDollarDigit b = true → hasDollarDigit (a ++ b) = true := by
  intro a
  induction a with
  | nil => intro b h; simpa using h
  | cons c a2 ih =>
    intro b h
    rw [List.cons_append]
    cases hab : a2 ++ b with
    | nil =>
      rcases List.append_eq_nil.mp hab with ⟨_, rfl⟩
      rw [hasDollarDigit] at h
      exact Bool.noConfusion h
    | cons x xs =>
      rw [hasDollarDigit_cons₂]
      have := ih b h
      rw [hab] at this
      rw [this]
      simp

/-- A string with no dollar at all has no dollar-digit pair. -/
theorem hasDollarDigit_of_free : ∀ l : List Char,
    l.contains '$' = false → hasDollarDigit l = false := by
  intro l
  match l with
  | [] => intro _; rfl
  | [c] => intro _; rfl
  | c :: d :: rest =>
    intro h
    have hc : ('$' == c) = false ∧ (d :: rest).contains '$' = false := by
      simpa [List.contains_cons] using h
    rw [hasDollarDigit_cons₂]
    have h2 : ¬c = '$' := by
      intro hx
      rw [hx] at hc
      simp at hc
    rw [hasDollarDigit_of_free (d :: rest) hc.2]
    simp [h2]

/-- Unfold well-formedness at a literal token. -/
theorem wfTokens_lit (n : Nat) (t : List Char) (ts : List NumToken) :
    wfTokens n (.lit t :: ts) = (litOk t && wfTokens n ts) := rfl

/-- Unfold well-formedness at a placeholder token. -/
theorem wfTokens_ph (n j : Nat) (ts : List NumToken) :
    wfTokens n (.ph j :: ts) =
      ((decide (1 ≤ j) && decide (j ≤ n)) &&
       (match ts with
        | [] => true
        | .lit [] :: _ => false
        | .lit (d :: _) :: _ => !d.isDigit
        | .ph _ :: _ => false) &&
       wfTokens n ts) := rfl

/-- Bounds of placeholder indices in a well-formed token list. -/
theorem wf_ph_bounds (n : Nat) : ∀ ts : List NumToken, wfTokens n ts = true →
    ∀ j, NumToken.ph j ∈ ts → 1 ≤ j ∧ j ≤ n := by
  intro ts
  induction ts with
  | nil => intro _ j hj; simp at hj
  | cons tok ts2 ih =>
    intro hwf j hj
    rcases List.mem_cons.mp hj with h | h
    · subst h
      rw [wfTokens_ph] at hwf
      simp only [Bool.and_eq_true, decide_eq_true_eq] at hwf
      exact ⟨hwf.1.1.1, hwf.1.1.2⟩
    · cases tok with
      | lit t =>
        rw [wfTokens_lit] at hwf
        simp only [Bool.and_eq_true] at hwf
        exact ih hwf.2 j h
      | ph k =>
        rw [wfTokens_ph] at hwf
        simp only [Bool.and_eq_true] at hwf
        exact ih hwf.2 j h

/-- Absence from a list, as a Boolean `contains` fact. -/
theorem contains_false_iff (l : List Char) (c : Char) :
    l.contains c = false ↔ ¬c ∈ l := by
  constructor
  · intro h hmem
    have h2 : l.contains c = true := List.elem_eq_true_of_mem hmem
    rw [h] at h2
    exact Bool.noConfusion h2
  · intro h
    cases hq : l.contains c
    · rfl
    · exact absurd (List.mem_of_elem_eq_true hq) h

/-- Concatenation preserves absence. -/
theorem contains_append_false (a b : List Char) (c : Char)
    (h1 : a.contains c = false) (h2 : b.contains c = false) :
    (a ++ b).contains c = false := by
  rw [contains_false_iff] at h1 h2 ⊢
  intro h
  rcases List.mem_append.mp h with h | h
  · exact h1 h
  · exact h2 h

/-- The rendering of a token list with no placeholders is free of dollars
and question marks. -/
theorem render_nophs (n : Nat) : ∀ ts : List NumToken, wfTokens n ts = true →
    (∀ j, ¬NumToken.ph j ∈ ts) →
    (renderTok ts).contains '$' = false ∧ (renderTok ts).contains '?' = false := by
  intro ts
  induction ts with
  | nil => intro _ _; constructor <;> rfl
  | cons tok ts2 ih =>
    intro hwf hph
    cases tok with
    | ph j => exact absurd (List.mem_cons_self _ _) (hph j)
    | lit t =>
      rw [wfTokens_lit] at hwf
      simp only [Bool.and_eq_true] at hwf
      have hlit : t.contains '$' = false ∧ t.contains '?' = false := by
        have h3 := hwf.1
        unfold litOk at h3
        simp only [Bool.and_eq_true, Bool.not_eq_true'] at h3
        exact h3
      have ih2 := ih hwf.2 (fun j hj => hph j (List.mem_cons_of_mem _ hj))
      rw [renderTok]
      exact ⟨contains_append_false _ _ _ hlit.1 ih2.1,
        contains_append_false _ _ _ hlit.2 ih2.2⟩

/-- A list of digit characters contains no dollar sign. -/
theorem digits_dollar_free (l : List Char) (h : ∀ c ∈ l, c.isDigit = true) :
    l.contains '$' = false := by
  rw [contains_false_iff]
  intro hmem
  have h2 := h _ hmem
  exact Bool.noConfusion h2

/-- Unfold placeholder replacement on the empty token list. -/
theorem replacePh_nil (i : Nat) (v : List Char) : replacePh i v [] = [] := rfl

/-- Unfold placeholder replacement at a literal token. -/
theorem replacePh_lit (i : Nat) (v t : List Char) (ts : List NumToken) :
    replacePh i v (.lit t :: ts) = .lit t :: replacePh i v ts := rfl

/-- Unfold placeholder replacement at a placeholder token. -/
theorem replacePh_ph (i : Nat) (v : List Char) (j : Nat) (ts : List NumToken) :
    replacePh i v (.ph j :: ts) =
      (if j = i then .lit v else .ph j) :: replacePh i v ts := rfl

/-- One substitution pass over a rendered well-formed token list replaces
exactly the placeholders of the pass's index by the (dollar-free) value
and leaves everything else unchanged. -/
theorem pass_render (n i : Nat) (v : List Char) (hv : v.contains '$' = false) :
    ∀ (m : Nat) (ts : List NumToken), ts.length ≤ m → wfTokens n ts = true →
      replaceAllNum (natDigits i) (v ++ ['$', '1']) (renderTok ts) =
        renderTok (replacePh i v ts) := by
  intro m
  induction m with
  | zero =>
    intro ts hlen _
    have : ts = [] := List.length_eq_zero.mp (by omega)
    subst this
    rw [renderTok, replacePh_nil, renderTok, replaceAllNum]
  | succ m ih =>
    intro ts hlen hwf
    cases ts with
    | nil => rw [renderTok, replacePh_nil, renderTok, replaceAllNum]
    | cons tok ts2 =>
      simp only [List.length_cons] at hlen
      cases tok with
      | lit t =>
        rw [wfTokens_lit] at hwf
        simp only [Bool.and_eq_true] at hwf
        have hfree : t.contains '$' = false := by
          have h3 := hwf.1
          unfold litOk at h3
          simp only [Bool.and_eq_true, Bool.not_eq_true'] at h3
          exact h3.1
        rw [renderTok, replacePh_lit, renderTok,
          replaceAllNum_append_free _ _ t _ hfree, ih ts2 (by omega) hwf.2]
      | ph j =>
        rw [wfTokens_ph] at hwf
        simp only [Bool.and_eq_true] at hwf
        obtain ⟨⟨hbounds, hfollow⟩, hwf2⟩ := hwf
        rw [renderTok, replacePh_ph]
        by_cases hj : j = i
        · subst hj
          rw [if_pos rfl, renderTok]
          have hpre : (natDigits j).isPrefixOf (natDigits j ++ renderTok ts2) = true :=
            List.isPrefixOf_iff_prefix.mpr (List.prefix_append _ _)
          have hcond : (('$' : Char) = '$' && (natDigits j).isPrefixOf
              (natDigits j ++ renderTok ts2)) = true := by
            simp [hpre]
          cases ts2 with
          | nil =>
            simp only [renderTok, List.append_nil]
            have hdrop : (natDigits j).drop (natDigits j).length = [] :=
              List.drop_length _
            rw [replaceAllNum_end _ _ _ _ (by simpa using hcond) hdrop,
              expandTmpl_value _ _ _ hv]
            simp [renderTok, replacePh_nil]
          | cons tok2 ts3 =>
            cases tok2 with
            | ph k => exact absurd hfollow (by simp)
            | lit t =>
              cases t with
              | nil => exact absurd hfollow (by simp)
              | cons d t2 =>
                have hd : d.isDigit = false := by
                  simpa using hfollow
                rw [wfTokens_lit] at hwf2
                simp only [Bool.and_eq_true] at hwf2
                have ht2free : t2.contains '$' = false := by
                  have h3 := hwf2.1
                  unfold litOk at h3
                  simp only [Bool.and_eq_true, Bool.not_eq_true'] at h3
                  have h4 := h3.1
                  simp only [List.contains_cons, Bool.or_eq_false_iff] at h4
                  exact h4.2
                rw [renderTok]
                rw [renderTok] at hcond
                have hdrop : (natDigits j ++ ((d :: t2) ++ renderTok ts3)).drop
                    (natDigits j).length = d :: (t2 ++ renderTok ts3) := by
                  rw [List.drop_left]
                  rfl
                rw [replaceAllNum_mid _ _ _ _ d (t2 ++ renderTok ts3)
                    hcond hdrop hd,
                  expandTmpl_value _ _ _ hv,
                  replaceAllNum_append_free _ _ t2 _ ht2free,
                  ih ts3 (by simp only [List.length_cons] at hlen; omega) hwf2.2]
                simp [replacePh_lit, renderTok]
        · rw [if_neg hj, renderTok]
          have hdjdigits := natDigits_digits j
          have hdjfree : (natDigits j).contains '$' = false :=
            digits_dollar_free _ hdjdigits
          have hrest : replaceAllNum (natDigits i) (v ++ ['$', '1'])
              (natDigits j ++ renderTok ts2) =
              natDigits j ++ renderTok (replacePh i v ts2) := by
            rw [replaceAllNum_append_free _ _ _ _ hdjfree, ih ts2 (by omega) hwf2]
          have hX : renderTok ts2 = [] ∨
              ∃ d xr, renderTok ts2 = d :: xr ∧ d.isDigit = false := by
            cases ts2 with
            | nil => exact Or.inl rfl
            | cons tok2 ts3 =>
              cases tok2 with
              | ph k => exact absurd hfollow (by simp)
              | lit t =>
                cases t with
                | nil => exact absurd hfollow (by simp)
                | cons d t2 =>
                  refine Or.inr ⟨d, t2 ++ renderTok ts3, by rw [renderTok]; rfl, ?_⟩
                  simpa using hfollow
          by_cases hpre : (natDigits i).isPrefixOf (natDigits j ++ renderTok ts2) = true
          · -- the pass index's digits are a prefix: the next character must
            -- be a digit, so the scan makes no replacement here either
            obtain ⟨s, hs⟩ := List.isPrefixOf_iff_prefix.mp hpre
            have hlendi : (natDigits i).length ≤ (natDigits j).length := by
              by_contra hgt
              push_neg at hgt
              have hXeq : renderTok ts2 =
                  (natDigits i).drop (natDigits j).length ++ s := by
                have h5 := congrArg (List.drop (natDigits j).length) hs
                rw [List.drop_append_eq_append_drop, List.drop_append_eq_append_drop,
                  List.drop_length, Nat.sub_self, List.drop_zero, List.nil_append,
                  Nat.sub_eq_zero_of_le (Nat.le_of_lt hgt), List.drop_zero] at h5
                exact h5.symm
              have hne : (natDigits i).drop (natDigits j).length ≠ [] := by
                intro hnil
                have h7 := congrArg List.length hnil
                simp only [List.length_drop, List.length_nil] at h7
                omega
              cases hdi : (natDigits i).drop (natDigits j).length with
              | nil => exact hne hdi
              | cons eh et =>
                have hehdig : eh.isDigit = true := by
                  refine natDigits_digits i eh ?_
                  have hsub := (List.drop_sublist (natDigits j).length (natDigits i))
                  exact hsub.mem (by rw [hdi]; exact List.mem_cons_self _ _)
                rw [hdi] at hXeq
                rcases hX with hX | ⟨d, xr, hX2, hdnd⟩
                · rw [hX] at hXeq
                  exact List.noConfusion hXeq.symm
                · rw [hX2] at hXeq
                  injection hXeq with h6 _
                  rw [h6] at hdnd
                  rw [hehdig] at hdnd
                  exact Bool.noConfusion hdnd
            have hdi_take : natDigits i = (natDigits j).take (natDigits i).length := by
              have h5 := congrArg (List.take (natDigits i).length) hs
              rw [List.take_append_eq_append_take, List.take_append_eq_append_take,
                List.take_length, Nat.sub_self, List.take_zero, List.append_nil,
                Nat.sub_eq_zero_of_le hlendi, List.take_zero, List.append_nil] at h5
              exact h5
            have hdj_split : natDigits j =
                natDigits i ++ (natDigits j).drop (natDigits i).length := by
              conv_lhs => rw [← List.take_append_drop (natDigits i).length (natDigits j)]
              rw [← hdi_take]
            cases he : (natDigits j).drop (natDigits i).length with
            | nil =>
              exfalso
              rw [he, List.append_nil] at hdj_split
              exact hj (natDigits_inj j i hdj_split)
            | cons eh et =>
              rw [he] at hdj_split
              have hehdig : eh.isDigit = true := by
                refine natDigits_digits j eh ?_
                rw [hdj_split]
                exact List.mem_append_right _ (List.mem_cons_self _ _)
              have hdrop : (natDigits j ++ renderTok ts2).drop (natDigits i).length =
                  eh :: (et ++ renderTok ts2) := by
                rw [hdj_split, List.append_assoc, List.drop_left]
                rfl
              rw [replaceAllNum_digit _ _ _ _ eh (et ++ renderTok ts2)
                (by simp [hpre]) hdrop hehdig, hrest]
          · have hpf : (natDigits i).isPrefixOf (natDigits j ++ renderTok ts2) = false := by
              cases hq : (natDigits i).isPrefixOf (natDigits j ++ renderTok ts2)
              · rfl
              · exact absurd hq hpre
            rw [replaceAllNum_nomatch _ _ _ _ (by simp [hpf]), hrest]

/-- Replacing a placeholder index by an admissible literal value preserves
well-formedness. -/
theorem wf_replacePh (n i : Nat) (v : List Char)
    (hvd : v.contains '$' = false) (hvq : v.contains '?' = false) :
    ∀ ts : List NumToken, wfTokens n ts = true →
      wfTokens n (replacePh i v ts) = true := by
  intro ts
  induction ts with
  | nil => intro _; rfl
  | cons tok ts2 ih =>
    intro hwf
    cases tok with
    | lit t =>
      rw [wfTokens_lit] at hwf
      simp only [Bool.and_eq_true] at hwf
      rw [replacePh_lit, wfTokens_lit]
      simp [hwf.1, ih hwf.2]
    | ph j =>
      rw [wfTokens_ph] at hwf
      simp only [Bool.and_eq_true] at hwf
      obtain ⟨⟨hb, hf⟩, hwf2⟩ := hwf
      rw [replacePh_ph]
      by_cases hj : j = i
      · rw [if_pos hj, wfTokens_lit]
        have hlit : litOk v = true := by
          unfold litOk
          rw [hvd, hvq]
          rfl
        simp [hlit, ih hwf2]
      · rw [if_neg hj, wfTokens_ph]
        simp only [Bool.and_eq_true]
        refine ⟨⟨hb, ?_⟩, ih hwf2⟩
        cases ts2 with
        | nil => simp [replacePh_nil]
        | cons tok2 ts3 =>
          cases tok2 with
          | lit t =>
            cases t with
            | nil => simp at hf
            | cons d t2 =>
              rw [replacePh_lit]
              simpa using hf
          | ph k => simp at hf

/-- Placeholders surviving a replacement pass were present before and have
a different index. -/
theorem mem_replacePh_ph (i : Nat) (v : List Char) :
    ∀ (ts : List NumToken) (j : Nat), NumToken.ph j ∈ replacePh i v ts →
      NumToken.ph j ∈ ts ∧ j ≠ i := by
  intro ts
  induction ts with
  | nil => intro j h; rw [replacePh_nil] at h; simp at h
  | cons tok ts2 ih =>
    intro j h
    cases tok with
    | lit t =>
      rw [replacePh_lit] at h
      rcases List.mem_cons.mp h with h | h
      · simp at h
      · have h2 := ih j h
        exact ⟨List.mem_cons_of_mem _ h2.1, h2.2⟩
    | ph k =>
      rw [replacePh_ph] at h
      by_cases hk : k = i
      · rw [if_pos hk] at h
        rcases List.mem_cons.mp h with h | h
        · simp at h
        · have h2 := ih j h
          exact ⟨List.mem_cons_of_mem _ h2.1, h2.2⟩
      · rw [if_neg hk] at h
        rcases List.mem_cons.mp h with h | h
        · injection h with h2
          subst h2
          exact ⟨List.mem_cons_self _ _, hk⟩
        · have h2 := ih j h
          exact ⟨List.mem_cons_of_mem _ h2.1, h2.2⟩

/-- Running the remaining passes over a rendered well-formed token list
whose placeholder indices all lie ahead of the running index eliminates
every placeholder: the result is free of dollars and question marks. -/
theorem loop_clean : ∀ (fvs : List String) (i0 : Nat) (ts : List NumToken),
    wfTokens (i0 + fvs.length) ts = true →
    (∀ j, NumToken.ph j ∈ ts → i0 < j) →
    (∀ fv ∈ fvs, fv.data.contains '$' = false ∧ fv.data.contains '?' = false) →
    (numberedLoop i0 fvs (renderTok ts)).contains '$' = false ∧
    (numberedLoop i0 fvs (renderTok ts)).contains '?' = false := by
  intro fvs
  induction fvs with
  | nil =>
    intro i0 ts hwf hph _
    rw [numberedLoop]
    refine render_nophs (i0 + [].length) ts hwf (fun j hj => ?_)
    have hb := wf_ph_bounds _ ts hwf j hj
    have h2 := hph j hj
    simp only [List.length_nil] at hb
    omega
  | cons v vs ih =>
    intro i0 ts hwf hph hfv
    rw [numberedLoop]
    have hv := hfv v (List.mem_cons_self v vs)
    have hpass := pass_render (i0 + (v :: vs).length) (i0 + 1) v.data hv.1
      ts.length ts (le_refl _) hwf
    rw [hpass]
    have heq : i0 + (v :: vs).length = (i0 + 1) + vs.length := by
      simp only [List.length_cons]
      omega
    refine ih (i0 + 1) (replacePh (i0 + 1) v.data ts) ?_ ?_ ?_
    · rw [← heq]
      exact wf_replacePh _ _ _ hv.1 hv.2 ts hwf
    · intro j hj
      have h2 := mem_replacePh_ph _ _ ts j hj
      have h3 := hph j h2.1
      have h4 := h2.2
      omega
    · intro fv hfv2
      exact hfv fv (List.mem_cons_of_mem _ hfv2)

/-- The rendering of a token list containing a placeholder triggers
numbered mode. -/
theorem hasDollarDigit_render_ph (n : Nat) : ∀ ts : List NumToken,
    wfTokens n ts = true → (∃ j, NumToken.ph j ∈ ts) →
    hasDollarDigit (renderTok ts) = true := by
  intro ts
  induction ts with
  | nil =>
    intro _ h
    rcases h with ⟨j, hj⟩
    simp at hj
  | cons tok ts2 ih =>
    intro hwf hex
    cases tok with
    | ph j =>
      rw [renderTok]
      cases hd : natDigits j with
      | nil => exact absurd hd (natDigits_ne_nil j)
      | cons d ds2 =>
        show hasDollarDigit ('$' :: d :: (ds2 ++ renderTok ts2)) = true
        rw [hasDollarDigit_cons₂]
        have hddig : d.isDigit = true :=
          natDigits_digits j d (by rw [hd]; exact List.mem_cons_self _ _)
        simp [hddig]
    | lit t =>
      rcases hex with ⟨j, hj⟩
      rcases List.mem_cons.mp hj with h | h
      · simp at h
      · rw [renderTok]
        apply hasDollarDigit_append_right
        rw [wfTokens_lit] at hwf
        simp only [Bool.and_eq_true] at hwf
        exact ih hwf.2 ⟨j, h⟩

/-- Counterexample to C5 as stated: a formatted value containing a `?`
leaves a `?` in the output. -/
theorem fully_substituted_counterexample :
    LogFormatter "a = ?" [.base (.other "b?")] = "a = 'b?'" ∧
    ('?' ∈ ("a = 'b?'" : String).data) := by
  constructor
  · decide
  · decide

/-- C5 (amended): fully substituted output — provided every formatted
value contains neither `?` nor `$`: (a) if the query decomposes into
admissible literal segments and placeholders `$i` with 1 ≤ i ≤ n (n the
number of bound values), every placeholder followed by a non-digit literal
character or the end of the query, and at least one placeholder occurs,
then the output contains no `$` and no `?` at all (in particular no
remaining placeholder); (b) if the query contains no `$` at all, the
output again contains no `$` and no `?` (every `?` marker is removed). -/
theorem fully_substituted (sqlq : String) (vars : List GoValue) (ts : List NumToken)
    (hv : ∀ fv ∈ formattedValues vars,
      fv.data.contains '$' = false ∧ fv.data.contains '?' = false)
    (hmode : (sqlq.data = renderTok ts ∧ wfTokens vars.length ts = true ∧
        ∃ j, NumToken.ph j ∈ ts) ∨ sqlq.data.contains '$' = false) :
    (LogFormatter sqlq vars).data.contains '$' = false ∧
    (LogFormatter sqlq vars).data.contains '?' = false := by
  rcases hmode with ⟨hq, hwf, hex⟩ | hfree
  · have hdd : hasDollarDigit sqlq.data = true := by
      rw [hq]
      exact hasDollarDigit_render_ph _ ts hwf hex
    have hwf2 : wfTokens (0 + (formattedValues vars).length) ts = true := by
      have hlen : (formattedValues vars).length = vars.length :=
        List.length_map _ _
      rw [Nat.zero_add, hlen]
      exact hwf
    have hph2 : ∀ j, NumToken.ph j ∈ ts → 0 < j := by
      intro j hj
      exact (wf_ph_bounds _ ts hwf j hj).1
    have hmain := loop_clean (formattedValues vars) 0 ts hwf2 hph2 hv
    unfold LogFormatter
    rw [if_pos hdd]
    show (numberedSubst sqlq.data (formattedValues vars)).contains '$' = false ∧
      (numberedSubst sqlq.data (formattedValues vars)).contains '?' = false
    unfold numberedSubst
    rw [hq]
    exact hmain
  · have hdd : hasDollarDigit sqlq.data = false := hasDollarDigit_of_free _ hfree
    unfold LogFormatter
    rw [if_neg (by simp [hdd])]
    show (interleaveQ (splitOnQ sqlq.data) ((formattedValues vars).map String.data)).contains
        '$' = false ∧
      (interleaveQ (splitOnQ sqlq.data) ((formattedValues vars).map String.data)).contains
        '?' = false
    constructor
    · rw [contains_false_iff]
      intro hmem
      rcases mem_interleaveQ _ _ _ hmem with ⟨p, hp, hc⟩ | ⟨u, hu, hc⟩
      · have h2 := mem_splitOnQ _ p hp _ hc
        exact (contains_false_iff _ _).mp hfree h2.1
      · rcases List.mem_map.mp hu with ⟨fv, hfv2, rfl⟩
        exact (contains_false_iff _ _).mp (hv fv hfv2).1 hc
    · rw [contains_false_iff]
      intro hmem
      rcases mem_interleaveQ _ _ _ hmem with ⟨p, hp, hc⟩ | ⟨u, hu, hc⟩
      · exact (mem_splitOnQ _ p hp _ hc).2 rfl
      · rcases List.mem_map.mp hu with ⟨fv, hfv2, rfl⟩
        exact (contains_false_iff _ _).mp (hv fv hfv2).2 hc

/-- Witness for C5 at a `?`-mode query with one value. -/
theorem fully_substituted_witness :
    (LogFormatter "a = ?" [.base (.intValue 7)]).data.contains '$' = false ∧
    (LogFormatter "a = ?" [.base (.intValue 7)]).data.contains '?' = false :=
  fully_substituted "a = ?" [.base (.intValue 7)] [] (by decide) (Or.inr (by decide))

end Otgorm
